import Mathlib

/-!
Shallow embedding of `src/src/tokenizer.rs` (the lexer of layus/rnix-parser).

The Rust tokenizer is a struct `Tokenizer { input: &str, row: u64, col: u64 }`
whose `Iterator::next` yields `Result<(Meta, Token), (Span, TokenizeError)>`
items.  We model the remaining input as a `List Char` (Rust iterates code
points; byte indices in the source are only used to slice at code-point
boundaries), `u64` positions as `Nat`, `i64` as `Int` with explicit
`checked_mul` / `checked_add` bounds, and `f64` as `Rat` (the float payload is
never inspected by any claim; `Rat` keeps the accumulation loop exact and
computable).

The mutually recursive trio — the iterator's `next`, `next_string`, and the
interpolation pull loop inside `next_string` — is modelled with a fuel
parameter, written as a single structural recursion on `Nat` (`machine`) so
that everything reduces by `rfl` on concrete inputs.  Per pull, fuel is only
spent on entering one of the three loops, and every such entry consumes at
least one code point except a repeated `UnclosedComment` error, so
`2 * |input| + 4` fuel per pull is always enough.
-/

namespace Rnix

/-- Mirrors `enum IdentType` (tokenizer.rs lines 4-9). -/
inductive IdentType where
  | Uri
  | Path
  | Ident
deriving DecidableEq

/-- Modelled from the spec: `Anchor ∈ { Absolute, Relative, Home, Store, Uri }`
(spec §3; the Rust type lives in `crate::value`, outside `src/`). -/
inductive Anchor where
  | Absolute
  | Relative
  | Home
  | Store
  | Uri
deriving DecidableEq

/-- Modelled from the spec: the `Value` leaf kinds the lexer emits
(spec §3: `Integer(i64)`, `Float(f64)`, `Str`, `Path(Anchor, string)`; the
Rust type lives in `crate::value`, outside `src/`).  `f64` is modelled as
`Rat`: no claim inspects float payloads and `Rat` keeps the reader's
arithmetic computable. -/
inductive Value where
  | Integer : Int → Value
  | Float : Rat → Value
  | Str : String → Value
  | Path : Anchor → String → Value

/-- Mirrors `struct Span` (lines 61-65); `end` is a Lean keyword, renamed
`stop`. -/
structure Span where
  start : Nat × Nat
  stop : Option (Nat × Nat)

/-- Mirrors `struct Meta` (lines 44-48). -/
structure Meta where
  span : Span
  comments : List String

mutual

/-- Mirrors `enum Token` (lines 17-42). -/
inductive Token where
  | CurlyBOpen
  | CurlyBClose
  | Equal
  | Semicolon
  | Dot
  | Ident : String → Token
  | Value : Value → Token
  | Interpol : List Interpol → Token
  | Let
  | In
  | With
  | Import
  | Rec
  | SquareBOpen
  | SquareBClose
  | Concat
  | ParenOpen
  | ParenClose
  | Add
  | Sub
  | Mul
  | Div

/-- Mirrors `enum Interpol` (lines 11-15). -/
inductive Interpol where
  | Literal : String → Interpol
  | Tokens : List (Meta × Token) → Interpol

end

/-- Mirrors `enum TokenizeError` (lines 75-89). -/
inductive TokenizeError where
  | IntegerOverflow
  | TrailingDecimal
  | UnexpectedEOF
  | UndefinedToken
  | TrailingSlash
  | UnclosedComment
deriving DecidableEq

/-- Mirrors `type Item = Result<(Meta, Token), (Span, TokenizeError)>`
(line 98). -/
abbrev Item := Except (Span × TokenizeError) (Meta × Token)

/-- The single-quote code point `0x27`; written via `Char.ofNat` to keep
character syntax simple. -/
def squote : Char := Char.ofNat 39

/-- ASCII letter, i.e. Rust's `'a'..='z' | 'A'..='Z'` patterns. -/
def isAsciiAlpha (c : Char) : Bool :=
  (97 ≤ c.toNat && c.toNat ≤ 122) || (65 ≤ c.toNat && c.toNat ≤ 90)

/-- ASCII digit, i.e. Rust's `'0'..='9'` pattern / `char::to_digit(10)`
success. -/
def isDigit10 (c : Char) : Bool :=
  48 ≤ c.toNat && c.toNat ≤ 57

/-- Value of an ASCII digit (Rust `char::to_digit(10).unwrap()`). -/
def digitVal (c : Char) : Nat :=
  c.toNat - 48

/-- Mirrors `fn is_valid_path_char` (lines 91-96): `[A-Za-z0-9/_.+-]`.
Code points: `/` 47, `_` 95, `.` 46, `+` 43, `-` 45. -/
def is_valid_path_char (c : Char) : Bool :=
  isAsciiAlpha c || isDigit10 c || c.toNat = 47 || c.toNat = 95 ||
    c.toNat = 46 || c.toNat = 43 || c.toNat = 45

/-- The `skip_while` class of the lookahead classifier (lines 287-290):
`[A-Za-z0-9_.+-]` — like `is_valid_path_char` but without `/`. -/
def identExtChar (c : Char) : Bool :=
  isAsciiAlpha c || isDigit10 c || c.toNat = 95 || c.toNat = 46 ||
    c.toNat = 43 || c.toNat = 45

/-- The extra URI code points of lines 344-345:
`: ? @ & = $ , ! ~ * ' %` (codes 58 63 64 38 61 36 44 33 126 42 39 37). -/
def uriSymbolChar (c : Char) : Bool :=
  c.toNat = 58 || c.toNat = 63 || c.toNat = 64 || c.toNat = 38 ||
    c.toNat = 61 || c.toNat = 36 || c.toNat = 44 || c.toNat = 33 ||
    c.toNat = 126 || c.toNat = 42 || c.toNat = 39 || c.toNat = 37

/-- The identifier continuation class of lines 342-347, parameterised by the
classifier verdict. -/
def identInclude (kind : IdentType) (c : Char) : Bool :=
  if isAsciiAlpha c || isDigit10 c || c.toNat = 95 then true
  else if uriSymbolChar c then kind = IdentType.Uri
  else kind = IdentType.Uri && is_valid_path_char c

/-- Rust `char::is_whitespace`: the Unicode `White_Space` property
(U+0009–U+000D, U+0020, U+0085, U+00A0, U+1680, U+2000–U+200A, U+2028,
U+2029, U+202F, U+205F, U+3000). -/
def rustIsWhitespace (c : Char) : Bool :=
  let n := c.toNat
  (9 ≤ n && n ≤ 13) || n = 32 || n = 133 || n = 160 || n = 5760 ||
    (8192 ≤ n && n ≤ 8202) || n = 8232 || n = 8233 || n = 8239 ||
    n = 8287 || n = 12288

/-- Space or tab, the indentation class of lines 182-185. -/
def isIndent (c : Char) : Bool :=
  c.toNat = 32 || c.toNat = 9

/-- Mirrors `struct Tokenizer` (lines 100-104) with the remaining input as a
list of code points. -/
structure Tokenizer where
  input : List Char
  row : Nat
  col : Nat

/-- Mirrors `Tokenizer::peek` (lines 141-143). -/
def Tokenizer.peek (t : Tokenizer) : Option Char :=
  t.input.head?

/-- Mirrors `Tokenizer::next` (lines 128-140): consume one code point,
updating `(row, col)` — a newline resets `col` and bumps `row`. -/
def Tokenizer.next (t : Tokenizer) : Option Char × Tokenizer :=
  match t.input with
  | [] => (none, t)
  | c :: rest =>
    (some c, if c = '\n' then ⟨rest, t.row + 1, 0⟩ else ⟨rest, t.row, t.col + 1⟩)

/-- The state after `Tokenizer::next`, discarding the returned char. -/
def Tokenizer.adv (t : Tokenizer) : Tokenizer :=
  (t.next).2

/-- Current cursor position `(row, col)`. -/
def Tokenizer.pos (t : Tokenizer) : Nat × Nat :=
  (t.row, t.col)

/-- Mirrors `Tokenizer::span_start` (lines 114-119). -/
def Tokenizer.spanStart (t : Tokenizer) : Span :=
  ⟨t.pos, none⟩

/-- Advance the cursor `n` times (used for loops that consume a known run). -/
def consumeN : Nat → Tokenizer → Tokenizer
  | 0, t => t
  | n + 1, t => consumeN n t.adv

/-- A `while include(peek) { push(next) }` loop (the body of `next_ident`,
lines 155-160, and the whitespace/indentation skips): it consumes exactly the
longest prefix of the input satisfying `p` and returns it. -/
def consumeWhile (p : Char → Bool) (t : Tokenizer) : List Char × Tokenizer :=
  (t.input.takeWhile p, consumeN (t.input.takeWhile p).length t)

/-- The whitespace skip of lines 247-249. -/
def skipWs (t : Tokenizer) : Tokenizer :=
  (consumeWhile rustIsWhitespace t).2

/-- Mirrors `Tokenizer::span_err` (lines 120-122); the state is threaded
through so iteration can continue afterwards, as in Rust where `self` stays
mutated. -/
def span_err (meta : Meta) (e : TokenizeError) (t : Tokenizer) :
    Option Item × Tokenizer :=
  (some (.error (meta.span, e)), t)

/-- Mirrors `Tokenizer::span_end` (lines 123-126). -/
def span_end (meta : Meta) (tok : Token) (t : Tokenizer) :
    Option Item × Tokenizer :=
  (some (.ok ({ meta with span := { meta.span with stop := some t.pos } }, tok)), t)

/-- Index of the first occurrence of the two-character sequence `*/`
(Rust `str::find("*/")`, line 268, searching from the start of the input,
which at that point still begins with `/*`). -/
def findStarSlash : List Char → Option Nat
  | '*' :: '/' :: _ => some 0
  | _ :: rest => (findStarSlash rest).map (· + 1)
  | [] => none

/-- Length of a `#` line-comment body within the input after the `#`:
up to and including the first newline, or the whole rest (lines 252-255). -/
def commentLen (rest : List Char) : Nat :=
  match rest.findIdx? (fun c => c = '\n') with
  | some j => j + 1
  | none => rest.length

/-- One arm of the trivia loop of `Iterator::next` (lines 246-284), taking
the continuation for further iterations; `t1` is the state after the
whitespace skip.

Line comments (lines 252-262): the body is `input[1..end]` where `end` is
one past the first `\n` (or the end of input); the position is
fast-forwarded by `row += 1, col := 0` exactly as in the source, even when
no newline exists.

Block comments (lines 263-281): a `/` not followed by `*` leaves the loop;
if `*/` does not occur, fail with `UnclosedComment` without consuming
anything; otherwise the body is `input[2..i]` for the first occurrence
index `i` and the cursor advances over all `i + 2` code points one at a
time.  (When the comment body itself starts with `/`, the first `*/`
occurrence overlaps the opener at `i = 1` and the Rust slice `input[2..1]`
panics; the model takes `i - 2 = 0` there instead — no claim exercises
that corner.) -/
def triviaArms
    (recur : Meta → Tokenizer →
      Except ((Span × TokenizeError) × Tokenizer) (Meta × Tokenizer))
    (meta : Meta) (t1 : Tokenizer) :
    Except ((Span × TokenizeError) × Tokenizer) (Meta × Tokenizer) :=
  match t1.input with
  | '#' :: rest =>
    recur
      { meta with
        comments := meta.comments ++ [String.mk (rest.take (commentLen rest))] }
      ⟨rest.drop (commentLen rest), t1.row + 1, 0⟩
  | '/' :: rest =>
    if rest.head? = some '*' then
      match findStarSlash t1.input with
      | none => .error ((meta.span, .UnclosedComment), t1)
      | some i =>
        recur
          { meta with
            comments :=
              meta.comments ++ [String.mk ((t1.input.drop 2).take (i - 2))] }
          (consumeN (i + 2) t1)
    else .ok (meta, t1)
  | _ => .ok (meta, t1)

/-- The trivia loop, fuelled: each continuing iteration consumes at least
one code point, so `input.length + 1` fuel always suffices (`trivia` below
supplies it). -/
def triviaLoop : Nat → Meta → Tokenizer →
    Except ((Span × TokenizeError) × Tokenizer) (Meta × Tokenizer)
  | 0, meta, t => .ok (meta, t)
  | fuel + 1, meta, t => triviaArms (triviaLoop fuel) meta (skipWs t)

/-- The trivia loop with always-sufficient fuel. -/
def trivia (meta : Meta) (t : Tokenizer) :
    Except ((Span × TokenizeError) × Tokenizer) (Meta × Tokenizer) :=
  triviaLoop (t.input.length + 1) meta t

/-- The lookahead classifier of lines 286-295: skip the longest prefix over
`[A-Za-z0-9_.+-]`, then look at the next two code points. -/
def lookahead (input : List Char) : Option IdentType :=
  match input.dropWhile identExtChar with
  | c1 :: c2 :: _ =>
    if c1 = ':' then if rustIsWhitespace c2 then none else some .Uri
    else if c1 = '/' then if rustIsWhitespace c2 then none else some .Path
    else none
  | _ => none

/-- `i64::checked_mul` on mathematical integers: the product must fit in
`[-2^63, 2^63 - 1]`. -/
def checked_mul (a b : Int) : Option Int :=
  if -(2 ^ 63) ≤ a * b ∧ a * b ≤ 2 ^ 63 - 1 then some (a * b) else none

/-- `i64::checked_add` on mathematical integers. -/
def checked_add (a b : Int) : Option Int :=
  if -(2 ^ 63) ≤ a + b ∧ a + b ≤ 2 ^ 63 - 1 then some (a + b) else none

/-- The integer accumulation loop of lines 381-387, on the remaining input:
returns `(some value, consumed)` or `(none, consumed)` on the first checked
overflow (the overflowing digit was already consumed, line 382). -/
def digitsRun (num : Int) : List Char → Option Int × Nat
  | [] => (some num, 0)
  | c :: rest =>
    if isDigit10 c then
      match checked_mul num 10 with
      | none => (none, 1)
      | some a =>
        match checked_add a ((digitVal c : Int)) with
        | none => (none, 1)
        | some num' =>
          let r := digitsRun num' rest
          (r.1, r.2 + 1)
    else (some num, 0)

/-- The fractional accumulation loop of lines 392-399: `i *= 10` before each
digit is divided, so the first fractional digit is divided by 10.  Returns
the accumulated value, the final divisor `i`, and the consumed count. -/
def floatRun (num : Rat) (i : Nat) : List Char → Rat × Nat × Nat
  | [] => (num, i, 0)
  | c :: rest =>
    if isDigit10 c then
      let i' := i * 10
      let r := floatRun (num + (digitVal c : Rat) / (i' : Rat)) i' rest
      (r.1, r.2.1, r.2.2 + 1)
    else (num, i, 0)

/-- The shared tail of the path branch (lines 310-314): read the
path-character run, reject a trailing `/`, and emit the anchored path. -/
def pathTail (meta : Meta) (anchor : Anchor) (pfx : Option Char)
    (t : Tokenizer) : Option Item × Tokenizer :=
  let r := consumeWhile is_valid_path_char t
  let ident := pfx.toList ++ r.1
  if ident.getLast? = some '/' then span_err meta .TrailingSlash r.2
  else span_end meta (.Value (.Path anchor (String.mk ident))) r.2

/-- The string-reader finale (lines 227-234): a plain string when no
interpolation occurred, otherwise the parts with the trailing non-empty
literal appended. -/
def finishString (meta : Meta) (ip : List Interpol) (lit : List Char)
    (t : Tokenizer) : Option Item × Tokenizer :=
  if ip.isEmpty then span_end meta (.Value (.Str (String.mk lit))) t
  else
    span_end meta
      (.Interpol (if lit.isEmpty then ip else ip ++ [.Literal (String.mk lit)])) t

/-- Result of the interpolation pull loop: either an `Item` to propagate
(an error, lines 200-205) or the collected token group. -/
abbrev InterpRes := Except Item (List (Meta × Token))

/-- Type of the iterator's `next` at a given fuel. -/
abbrev IterF := Tokenizer → Option Item × Tokenizer

/-- Type of `next_string`'s loop at a given fuel: the accumulated `interpol`
parts and `literal` buffer are the loop's mutable locals (lines 165-166). -/
abbrev StrF := Meta → Bool → List Interpol → List Char → Tokenizer →
  Option Item × Tokenizer

/-- Type of the interpolation pull loop at a given fuel: accumulated tokens
and the brace-depth counter (lines 196-215). -/
abbrev InterpF := Meta → List (Meta × Token) → Nat → Tokenizer →
  Option InterpRes × Tokenizer

/-- One step of `next_string` (lines 164-235), taking the next-lower-fuel
loops as arguments.  The guard structure follows the source match arms in
order: closing `"` (single-line), `'` handling (multi-line), newline
handling (multi-line), backslash escape (single-line), `$`, then the
catch-all literal push.

In the backslash arm, `literal.push(self.next()?)` propagates `None` when
the input ends right after the backslash: the iterator ends with no item. -/
def strBody (str : StrF) (interp : InterpF) (meta : Meta) (ml : Bool)
    (ip : List Interpol) (lit : List Char) (t : Tokenizer) :
    Option Item × Tokenizer :=
  match t.peek with
  | none => span_err meta .UnexpectedEOF t
  | some c =>
    if c = '"' ∧ ml = false then finishString meta ip lit t.adv
    else if c = squote ∧ ml = true then
      match t.adv.peek with
      | none => span_err meta .UnexpectedEOF t.adv
      | some c2 =>
        if c2 = squote then finishString meta ip lit t.adv.adv
        else str meta ml ip (lit ++ [squote]) t.adv
    else if c = '\n' ∧ ml = true then
      let lit1 := if lit = [] then lit else lit ++ ['\n']
      str meta ml ip lit1 (consumeWhile isIndent t.adv).2
    else if c = '\\' ∧ ml = false then
      match t.adv.next with
      | (none, t2) => (none, t2)
      | (some c2, t2) => str meta ml ip (lit ++ [c2]) t2
    else if c = '$' then
      match t.adv.peek with
      | some c2 =>
        if c2 = '{' then
          let ip1 := ip ++ [.Literal (String.mk lit)]
          match interp meta [] 0 t.adv.adv with
          | (none, t3) => (none, t3)
          | (some (.error item), t3) => (some item, t3)
          | (some (.ok tokens), t3) => str meta ml (ip1 ++ [.Tokens tokens]) [] t3
        else str meta ml ip (lit ++ ['$']) t.adv
      | none => str meta ml ip (lit ++ ['$']) t.adv
    else str meta ml ip (lit ++ [c]) t.adv

/-- One step of the interpolation pull loop (lines 196-215): pull a token
from the same cursor; end of input is `UnexpectedEOF`, an `Err` item is
propagated verbatim, `CurlyBOpen` bumps the depth counter, a `CurlyBClose`
at depth 0 terminates without being collected, any other pulled token is
appended. -/
def interpBody (iter : IterF) (interp : InterpF) (meta : Meta)
    (tokens : List (Meta × Token)) (count : Nat) (t : Tokenizer) :
    Option InterpRes × Tokenizer :=
  match iter t with
  | (none, t1) => (some (.error (.error (meta.span, .UnexpectedEOF))), t1)
  | (some (.error e), t1) => (some (.error (.error e)), t1)
  | (some (.ok (m, tok)), t1) =>
    match tok with
    | .CurlyBOpen => interp meta (tokens ++ [(m, tok)]) (count + 1) t1
    | .CurlyBClose =>
      if count = 0 then (some (.ok tokens), t1)
      else interp meta (tokens ++ [(m, tok)]) (count - 1) t1
    | _ => interp meta (tokens ++ [(m, tok)]) count t1

/-- The keyword table of lines 349-356. -/
def keywordOf (s : String) : Token :=
  if s = "let" then .Let
  else if s = "in" then .In
  else if s = "with" then .With
  else if s = "import" then .Import
  else if s = "rec" then .Rec
  else .Ident s

/-- The `<` store-path branch (lines 332-338): read a path-character run,
require `>`, emit a `Store`-anchored path (note: no trailing-slash check
here). -/
def storeTail (meta : Meta) (t : Tokenizer) : Option Item × Tokenizer :=
  match consumeWhile is_valid_path_char t with
  | (cs, t3) =>
    match t3.next with
    | (o, t4) =>
      if o = some '>' then
        span_end meta (.Value (.Path .Store (String.mk cs))) t4
      else span_err meta .UndefinedToken t4

/-- The letter branch (lines 339-364): read the identifier run under the
classifier verdict; an `Ident` verdict goes through the keyword table, a
`Uri` verdict emits a `Uri`-anchored path.  The `Path` arm of the inner
match is unreachable (the dispatcher's path branch fires first; the source
asserts this at line 341). -/
def identTail (meta : Meta) (kind1 : IdentType) (c : Char) (t : Tokenizer) :
    Option Item × Tokenizer :=
  match consumeWhile (identInclude kind1) t with
  | (cs, t3) =>
    if kind1 = IdentType.Ident then
      span_end meta (keywordOf (String.mk (c :: cs))) t3
    else
      span_end meta
        (match kind1 with
         | .Ident => .Ident (String.mk (c :: cs))
         | .Path => .Value (.Path .Relative (String.mk (c :: cs)))
         | .Uri => .Value (.Path .Uri (String.mk (c :: cs)))) t3

/-- The fractional tail of the numeric branch (lines 389-405), entered after
the `.` was consumed. -/
def floatTail (meta : Meta) (num : Int) (t4 : Tokenizer) :
    Option Item × Tokenizer :=
  match floatRun (num : Rat) 1 t4.input with
  | (numf, i, k2) =>
    if i = 1 then span_err meta .TrailingDecimal (consumeN k2 t4)
    else span_end meta (.Value (.Float numf)) (consumeN k2 t4)

/-- The numeric branch (lines 370-408): checked decimal accumulation, then
either a fractional tail after `.` or an `Integer` token. -/
def numericTail (meta : Meta) (c : Char) (t : Tokenizer) :
    Option Item × Tokenizer :=
  match digitsRun ((digitVal c : Int)) t.input with
  | (none, k) => span_err meta .IntegerOverflow (consumeN k t)
  | (some num, k) =>
    if (consumeN k t).peek = some '.' then floatTail meta num (consumeN k t).adv
    else span_end meta (.Value (.Integer num)) (consumeN k t)

/-- The dispatcher of lines 300-411: given the classifier verdict `kind`,
the pending `meta`, and the first consumed code point `c`, route to the
right reader; the branch order follows the source match arms. -/
def dispatch (str : StrF) (kind : Option IdentType) (meta : Meta) (c : Char)
    (t2 : Tokenizer) : Option Item × Tokenizer :=
  if c = '~' ∨ kind = some IdentType.Path then
    if c = '~' then
      match t2.next with
      | (o, t3) =>
        if o = some '/' then pathTail meta .Home none t3
        else span_err meta .UndefinedToken t3
    else if c = '/' then pathTail meta .Absolute (some '/') t2
    else pathTail meta .Relative (some c) t2
  else if c = '{' then span_end meta .CurlyBOpen t2
  else if c = '}' then span_end meta .CurlyBClose t2
  else if c = '=' then span_end meta .Equal t2
  else if c = ';' then span_end meta .Semicolon t2
  else if c = '[' then span_end meta .SquareBOpen t2
  else if c = ']' then span_end meta .SquareBClose t2
  else if c = '(' then span_end meta .ParenOpen t2
  else if c = ')' then span_end meta .ParenClose t2
  else if c = '+' then
    if t2.peek = some '+' then span_end meta .Concat t2.adv
    else span_end meta .Add t2
  else if c = '-' then span_end meta .Sub t2
  else if c = '*' then span_end meta .Mul t2
  else if c = '/' then span_end meta .Div t2
  else if c = '.' then span_end meta .Dot t2
  else if c = '<' then storeTail meta t2
  else if isAsciiAlpha c then identTail meta (kind.getD IdentType.Ident) c t2
  else if c = '"' then str meta false [] [] t2
  else if c = squote then
    if t2.peek = some squote then str meta true [] [] t2.adv
    else span_err meta .UndefinedToken t2
  else if isDigit10 c then numericTail meta c t2
  else span_err meta .UndefinedToken t2

/-- One step of `Iterator::next` (lines 240-412), taking the
next-lower-fuel string loop as argument: trivia with the entry position as
the fallback span, then lookahead classification on the remaining input,
span start, one consumed code point, and dispatch. -/
def iterBody (str : StrF) (t : Tokenizer) : Option Item × Tokenizer :=
  match trivia { span := t.spanStart, comments := [] } t with
  | .error (se, t1) => (some (.error se), t1)
  | .ok (meta1, t1) =>
    match t1.next with
    | (none, t2) => (none, t2)
    | (some c, t2) =>
      dispatch str (lookahead t1.input) { meta1 with span := t1.spanStart } c t2

/-- The three mutually recursive loops at one fuel level. -/
structure Machine where
  iter : IterF
  str : StrF
  interp : InterpF

/-- Tie the recursion by structural recursion on fuel: at fuel 0 every loop
gives up (`none` with the state unchanged); at fuel `n + 1` each body may
call any of the fuel-`n` loops. -/
def machine : Nat → Machine
  | 0 =>
    ⟨fun t => (none, t), fun _ _ _ _ t => (none, t), fun _ _ _ t => (none, t)⟩
  | fuel + 1 =>
    let m := machine fuel
    ⟨iterBody m.str, strBody m.str m.interp, interpBody m.iter m.interp⟩

/-- `Iterator::next` for the tokenizer, at a given fuel. -/
def iterNext (fuel : Nat) : IterF :=
  (machine fuel).iter

/-- `Tokenizer::next_string`'s loop, at a given fuel. -/
def nextString (fuel : Nat) : StrF :=
  (machine fuel).str

/-- The interpolation pull loop, at a given fuel. -/
def interpolLoop (fuel : Nat) : InterpF :=
  (machine fuel).interp

/-- Repeatedly pull items, up to `n` of them; each pull receives
always-sufficient fuel for a single item. -/
def tokenStream : Nat → Tokenizer → List Item
  | 0, _ => []
  | n + 1, t =>
    match iterNext (2 * t.input.length + 4) t with
    | (none, _) => []
    | (some item, t') => item :: tokenStream n t'

/-- Mirrors `pub fn tokenize` (lines 415-417): the item sequence obtained by
pulling the iterator.  Every pull that yields an item consumes at least one
code point except the repeated `UnclosedComment` error, so `|input| + 1`
pulls exhaust every terminating stream. -/
def tokenize (s : String) : List Item :=
  tokenStream (s.data.length + 1) ⟨s.data, 0, 0⟩

/-- The `Ok` items of a stream, in order. -/
def okItems (items : List Item) : List (Meta × Token) :=
  items.filterMap fun i =>
    match i with
    | .ok mt => some mt
    | .error _ => none

/-- Forget the metadata/span of an item (the shape the unit tests of the
source compare against). -/
def itemTok (i : Item) : Except TokenizeError Token :=
  match i with
  | .ok (_, tok) => .ok tok
  | .error (_, e) => .error e

end Rnix

namespace Rnix

/-- Lexicographic order on `(row, col)` positions: the cursor only moves
forward in this order. -/
def posLe (a b : Nat × Nat) : Prop :=
  a.1 < b.1 ∨ (a.1 = b.1 ∧ a.2 ≤ b.2)

/-- Adjacency of two emitted tokens: the span of the second starts no
earlier than the first one ends. -/
def adjOK (x y : Meta × Token) : Prop :=
  ∀ p, x.1.span.stop = some p → posLe p y.1.span.start

/-- Chains of adjacent tokens, the span invariant for one token list. -/
def ChainP (ts : List (Meta × Token)) : Prop :=
  List.Chain' adjOK ts

/-- A token, if it is a `Path` with anchor `Absolute`, `Relative` or `Home`,
has a body that does not end in `/` (code point 47). -/
def pathCond (mt : Meta × Token) : Prop :=
  ∀ a s, mt.2 = .Value (.Path a s) →
    (a = Anchor.Absolute ∨ a = Anchor.Relative ∨ a = Anchor.Home) →
    s.data.getLast? ≠ some '/'

mutual

/-- Recursive closure of a list property `L` and a pointwise property `P`
over the token groups nested inside `Interpol` tokens. -/
def RecTok (L : List (Meta × Token) → Prop) (P : Meta × Token → Prop) :
    Token → Prop
  | .Interpol parts => RecParts L P parts
  | _ => True

/-- `RecTok` pushed through a list of interpolation parts. -/
def RecParts (L : List (Meta × Token) → Prop) (P : Meta × Token → Prop) :
    List Interpol → Prop
  | [] => True
  | part :: rest => RecPart L P part ∧ RecParts L P rest

/-- `RecTok` pushed through one interpolation part: a `Tokens` group
satisfies `L`, and every member satisfies `P` and recurses. -/
def RecPart (L : List (Meta × Token) → Prop) (P : Meta × Token → Prop) :
    Interpol → Prop
  | .Literal _ => True
  | .Tokens ts => L ts ∧ RecList L P ts

/-- `RecTok` pushed through a token group. -/
def RecList (L : List (Meta × Token) → Prop) (P : Meta × Token → Prop) :
    List (Meta × Token) → Prop
  | [] => True
  | mt :: rest => P mt ∧ RecTok L P mt.2 ∧ RecList L P rest

end

/-- Invariant conclusion for one pull of the iterator from state `t`:
the cursor only moves forward, and a successful item has its span's end at
the final cursor position, its span's start no earlier than the initial
position, no violating path body, and recursively well-formed interpolation
groups. -/
def IterConc (t : Tokenizer) (r : Option Item) (t' : Tokenizer) : Prop :=
  posLe t.pos t'.pos ∧
    ∀ m tok, r = some (.ok (m, tok)) →
      m.span.stop = some t'.pos ∧ posLe t.pos m.span.start ∧
        pathCond (m, tok) ∧ RecTok ChainP pathCond tok

/-- Invariant conclusion for the string loop: like `IterConc`, but the
emitted meta is the one passed in, so the span's start is `meta.span.start`
verbatim. -/
def StrConc (meta : Meta) (t : Tokenizer) (r : Option Item) (t' : Tokenizer) :
    Prop :=
  posLe t.pos t'.pos ∧
    ∀ m tok, r = some (.ok (m, tok)) →
      m.span.stop = some t'.pos ∧ m.span.start = meta.span.start ∧
        pathCond (m, tok) ∧ RecTok ChainP pathCond tok

/-- Precondition of the interpolation pull loop: the accumulated tokens are
recursively well formed, chained, and end before the current cursor. -/
def InterpPre (tokens : List (Meta × Token)) (t : Tokenizer) : Prop :=
  RecList ChainP pathCond tokens ∧ List.Chain' adjOK tokens ∧
    ∀ mt, tokens.getLast? = some mt →
      ∀ p, mt.1.span.stop = some p → posLe p t.pos

/-- Invariant conclusion of the interpolation pull loop.  A propagated
`Item` is always an `Err` item. -/
def InterpConc (t : Tokenizer) (r : Option InterpRes) (t' : Tokenizer) :
    Prop :=
  posLe t.pos t'.pos ∧
    (∀ ts, r = some (.ok ts) →
      RecList ChainP pathCond ts ∧ List.Chain' adjOK ts) ∧
    ∀ item, r = some (.error item) → ∃ se, item = .error se

/-- The identifier-extended class `[A-Za-z0-9_.+-]`, written from the
spec's words (§4.3). -/
def specIdentClass (c : Char) : Bool :=
  (65 ≤ c.toNat && c.toNat ≤ 90) || (97 ≤ c.toNat && c.toNat ≤ 122) ||
    (48 ≤ c.toNat && c.toNat ≤ 57) || c = '_' || c = '.' || c = '+' || c = '-'

/-- The classifier as worded by the spec (§4.3) and claim C1: take `R`, the
longest prefix over the identifier-extended class; look at the code points
at positions `|R|` and `|R| + 1` of the remaining input; `:` followed by an
existing non-whitespace code point is `Uri`, `/` likewise is `Path`, and
anything else is an identifier (`none`). -/
def specClassify (input : List Char) : Option IdentType :=
  match input[(input.takeWhile specIdentClass).length]?,
      input[(input.takeWhile specIdentClass).length + 1]? with
  | some c1, some c2 =>
    if c1 = ':' ∧ ¬ rustIsWhitespace c2 then some .Uri
    else if c1 = '/' ∧ ¬ rustIsWhitespace c2 then some .Path
    else none
  | _, _ => none

/-- Arithmetic value of a decimal digit run. -/
def digitsVal (ds : List Char) : Int :=
  ds.foldl (fun a c => 10 * a + (digitVal c : Int)) 0

/-- Every character is an ASCII digit. -/
def allDigits (ds : List Char) : Prop :=
  ∀ c ∈ ds, isDigit10 c = true

/-- Scanning a single-line string body left to right, does the input end in
the middle of a backslash escape?  (`\X` consumes two code points at once;
a final lone backslash makes `literal.push(self.next()?)` propagate `None`.) -/
def trailingEscape : List Char → Bool
  | [] => false
  | ['\\'] => true
  | '\\' :: _ :: rest => trailingEscape rest
  | _ :: rest => trailingEscape rest

/-- Number of `CurlyBOpen` tokens in a group. -/
def curlyOpens (ts : List (Meta × Token)) : Nat :=
  ts.countP fun mt =>
    match mt.2 with
    | .CurlyBOpen => true
    | _ => false

/-- Number of `CurlyBClose` tokens in a group. -/
def curlyCloses (ts : List (Meta × Token)) : Nat :=
  ts.countP fun mt =>
    match mt.2 with
    | .CurlyBClose => true
    | _ => false

end Rnix

namespace Rnix

theorem posLe_refl (a : Nat × Nat) : posLe a a := by
  simp [posLe]

theorem posLe_trans {a b c : Nat × Nat} (h1 : posLe a b) (h2 : posLe b c) :
    posLe a c := by
  rcases h1 with h1 | ⟨h1, h1'⟩ <;> rcases h2 with h2 | ⟨h2, h2'⟩ <;>
    simp [posLe] <;> omega

@[simp] theorem adv_input (t : Tokenizer) : t.adv.input = t.input.tail := by
  rcases t with ⟨input, row, col⟩
  cases input with
  | nil => rfl
  | cons c rest => simp [Tokenizer.adv, Tokenizer.next]; split <;> rfl

theorem adv_pos (t : Tokenizer) : posLe t.pos t.adv.pos := by
  rcases t with ⟨input, row, col⟩
  cases input with
  | nil => exact posLe_refl _
  | cons c rest =>
    simp [Tokenizer.adv, Tokenizer.next]
    split <;> simp [posLe, Tokenizer.pos]

@[simp] theorem consumeN_input (n : Nat) (t : Tokenizer) :
    (consumeN n t).input = t.input.drop n := by
  induction n generalizing t with
  | zero => rfl
  | succ n ih =>
    rw [consumeN, ih, adv_input]
    cases t.input <;> simp

theorem consumeN_pos (n : Nat) (t : Tokenizer) :
    posLe t.pos (consumeN n t).pos := by
  induction n generalizing t with
  | zero => exact posLe_refl _
  | succ n ih => exact posLe_trans (adv_pos t) (ih t.adv)

theorem drop_length_takeWhile (p : Char → Bool) (l : List Char) :
    l.drop (l.takeWhile p).length = l.dropWhile p := by
  induction l with
  | nil => rfl
  | cons c rest ih =>
    by_cases h : p c
    · simp [List.takeWhile_cons, List.dropWhile_cons, h, ih]
    · simp [List.takeWhile_cons, List.dropWhile_cons, h]

@[simp] theorem consumeWhile_input (p : Char → Bool) (t : Tokenizer) :
    (consumeWhile p t).2.input = t.input.dropWhile p := by
  simp [consumeWhile, drop_length_takeWhile]

theorem consumeWhile_pos (p : Char → Bool) (t : Tokenizer) :
    posLe t.pos (consumeWhile p t).2.pos :=
  consumeN_pos _ t

@[simp] theorem skipWs_input (t : Tokenizer) :
    (skipWs t).input = t.input.dropWhile rustIsWhitespace :=
  consumeWhile_input _ t

theorem skipWs_pos (t : Tokenizer) : posLe t.pos (skipWs t).pos :=
  consumeWhile_pos _ t

theorem triviaArms_pos
    {recur : Meta → Tokenizer →
      Except ((Span × TokenizeError) × Tokenizer) (Meta × Tokenizer)}
    (hrec : ∀ meta t,
      (∀ m1 t1, recur meta t = .ok (m1, t1) → posLe t.pos t1.pos) ∧
      (∀ se t1, recur meta t = .error (se, t1) → posLe t.pos t1.pos))
    (meta : Meta) (t1 : Tokenizer) :
    (∀ m2 t2, triviaArms recur meta t1 = .ok (m2, t2) → posLe t1.pos t2.pos) ∧
    (∀ se t2, triviaArms recur meta t1 = .error (se, t2) → posLe t1.pos t2.pos) := by
  have hstep : posLe t1.pos (t1.row + 1, 0) := by
    simp [posLe, Tokenizer.pos]
  constructor
  · intro m2 t2 h
    rw [triviaArms] at h
    split at h
    · exact posLe_trans hstep ((hrec _ _).1 _ _ h)
    · split at h
      · split at h
        · cases h
        · exact posLe_trans (consumeN_pos _ _) ((hrec _ _).1 _ _ h)
      · cases h
        exact posLe_refl _
    · cases h
      exact posLe_refl _
  · intro se t2 h
    rw [triviaArms] at h
    split at h
    · exact posLe_trans hstep ((hrec _ _).2 _ _ h)
    · split at h
      · split at h
        · cases h
          exact posLe_refl _
        · exact posLe_trans (consumeN_pos _ _) ((hrec _ _).2 _ _ h)
      · cases h
    · cases h

theorem triviaLoop_pos (fuel : Nat) (meta : Meta) (t : Tokenizer) :
    (∀ meta1 t1, triviaLoop fuel meta t = .ok (meta1, t1) → posLe t.pos t1.pos) ∧
    (∀ se t1, triviaLoop fuel meta t = .error (se, t1) → posLe t.pos t1.pos) := by
  induction fuel generalizing meta t with
  | zero =>
    constructor
    · intro meta1 t1 h
      rw [triviaLoop] at h
      cases h
      exact posLe_refl _
    · intro se t1 h
      rw [triviaLoop] at h
      cases h
  | succ fuel ih =>
    rw [triviaLoop]
    have harm := triviaArms_pos (fun meta t => ih meta t) meta (skipWs t)
    constructor
    · intro meta1 t1 h
      exact posLe_trans (skipWs_pos t) (harm.1 _ _ h)
    · intro se t1 h
      exact posLe_trans (skipWs_pos t) (harm.2 _ _ h)

theorem trivia_ok_pos {meta meta1 : Meta} {t t1 : Tokenizer}
    (h : trivia meta t = .ok (meta1, t1)) : posLe t.pos t1.pos :=
  (triviaLoop_pos _ meta t).1 _ _ h

theorem trivia_err_pos {meta : Meta} {se : Span × TokenizeError}
    {t t1 : Tokenizer} (h : trivia meta t = .error (se, t1)) :
    posLe t.pos t1.pos :=
  (triviaLoop_pos _ meta t).2 _ _ h

end Rnix

namespace Rnix

theorem recTok_interpol {L : List (Meta × Token) → Prop}
    {P : Meta × Token → Prop} (parts : List Interpol) :
    RecTok L P (.Interpol parts) = RecParts L P parts := by
  simp [RecTok]

theorem recTok_other {L : List (Meta × Token) → Prop}
    {P : Meta × Token → Prop} (tok : Token)
    (h : ∀ parts, tok ≠ .Interpol parts) : RecTok L P tok := by
  cases tok <;> simp [RecTok]
  exact absurd rfl (h _)

theorem recParts_append {L : List (Meta × Token) → Prop}
    {P : Meta × Token → Prop} (a b : List Interpol) :
    RecParts L P (a ++ b) ↔ RecParts L P a ∧ RecParts L P b := by
  induction a with
  | nil => simp [RecParts]
  | cons part rest ih => simp [RecParts, ih, and_assoc]

theorem recList_append {L : List (Meta × Token) → Prop}
    {P : Meta × Token → Prop} (a b : List (Meta × Token)) :
    RecList L P (a ++ b) ↔ RecList L P a ∧ RecList L P b := by
  induction a with
  | nil => simp [RecList]
  | cons mt rest ih => simp [RecList, ih, and_assoc]

end Rnix

namespace Rnix

mutual

theorem recTok_mono {L L' : List (Meta × Token) → Prop}
    {P P' : Meta × Token → Prop}
    (hL : ∀ ts, L ts → L' ts) (hP : ∀ mt, P mt → P' mt) :
    ∀ tok, RecTok L P tok → RecTok L' P' tok
  | .Interpol parts, h => by
    rw [recTok_interpol] at h ⊢
    exact recParts_mono hL hP parts h
  | .CurlyBOpen, _ | .CurlyBClose, _ | .Equal, _ | .Semicolon, _ | .Dot, _
  | .Ident _, _ | .Value _, _ | .Let, _ | .In, _ | .With, _ | .Import, _
  | .Rec, _ | .SquareBOpen, _ | .SquareBClose, _ | .Concat, _
  | .ParenOpen, _ | .ParenClose, _ | .Add, _ | .Sub, _ | .Mul, _ | .Div, _ =>
    recTok_other _ (by intro ps hh; cases hh)

theorem recParts_mono {L L' : List (Meta × Token) → Prop}
    {P P' : Meta × Token → Prop}
    (hL : ∀ ts, L ts → L' ts) (hP : ∀ mt, P mt → P' mt) :
    ∀ parts, RecParts L P parts → RecParts L' P' parts
  | [], _ => by simp [RecParts]
  | part :: rest, h => by
    simp only [RecParts] at h ⊢
    exact ⟨recPart_mono hL hP part h.1, recParts_mono hL hP rest h.2⟩

theorem recPart_mono {L L' : List (Meta × Token) → Prop}
    {P P' : Meta × Token → Prop}
    (hL : ∀ ts, L ts → L' ts) (hP : ∀ mt, P mt → P' mt) :
    ∀ part, RecPart L P part → RecPart L' P' part
  | .Literal _, _ => by simp [RecPart]
  | .Tokens ts, h => by
    simp only [RecPart] at h ⊢
    exact ⟨hL _ h.1, recList_mono hL hP ts h.2⟩

theorem recList_mono {L L' : List (Meta × Token) → Prop}
    {P P' : Meta × Token → Prop}
    (hL : ∀ ts, L ts → L' ts) (hP : ∀ mt, P mt → P' mt) :
    ∀ ts, RecList L P ts → RecList L' P' ts
  | [], _ => by simp [RecList]
  | mt :: rest, h => by
    simp only [RecList] at h ⊢
    exact ⟨hP _ h.1, recTok_mono hL hP mt.2 h.2.1, recList_mono hL hP rest h.2.2⟩

end

end Rnix

namespace Rnix

theorem span_end_inv {meta : Meta} {tok : Token} {T t' : Tokenizer}
    {r : Option Item} (h : span_end meta tok T = (r, t')) :
    t' = T ∧
      r = some (.ok ({ meta with span := { meta.span with stop := some T.pos } }, tok)) := by
  rw [span_end] at h
  cases h
  exact ⟨rfl, rfl⟩

theorem span_err_inv {meta : Meta} {e : TokenizeError} {T t' : Tokenizer}
    {r : Option Item} (h : span_err meta e T = (r, t')) :
    t' = T ∧ r = some (.error (meta.span, e)) := by
  rw [span_err] at h
  cases h
  exact ⟨rfl, rfl⟩

theorem pathTail_spec {meta : Meta} {anchor : Anchor} {pfx : Option Char}
    {T t' : Tokenizer} {r : Option Item}
    (h : pathTail meta anchor pfx T = (r, t')) :
    posLe T.pos t'.pos ∧
      ∀ m tok, r = some (.ok (m, tok)) →
        m.span.stop = some t'.pos ∧ m.span.start = meta.span.start ∧
          pathCond (m, tok) ∧ RecTok ChainP pathCond tok := by
  rw [pathTail] at h
  split at h
  · obtain ⟨ht, hr⟩ := span_err_inv h
    subst ht
    refine ⟨consumeWhile_pos _ _, ?_⟩
    intro m tok hmt
    rw [hr] at hmt
    cases hmt
  · rename_i hslash
    obtain ⟨ht, hr⟩ := span_end_inv h
    subst ht
    refine ⟨consumeWhile_pos _ _, ?_⟩
    intro m tok hmt
    rw [hr] at hmt
    cases hmt
    refine ⟨rfl, rfl, ?_, ?_⟩
    · intro a s hs
      cases hs
      intro _
      simpa using hslash
    · exact recTok_other _ (by intro ps hh; cases hh)

end Rnix


namespace Rnix

theorem interpPre_nil (t : Tokenizer) : InterpPre [] t := by
  refine ⟨by simp [RecList], by simp, ?_⟩
  intro mt h
  cases h

theorem finishString_spec {meta : Meta} {ip : List Interpol} {lit : List Char}
    {T t' : Tokenizer} {r : Option Item}
    (hip : RecParts ChainP pathCond ip)
    (h : finishString meta ip lit T = (r, t')) :
    t' = T ∧
      ∀ m tok, r = some (.ok (m, tok)) →
        m.span.stop = some T.pos ∧ m.span.start = meta.span.start ∧
          pathCond (m, tok) ∧ RecTok ChainP pathCond tok := by
  rw [finishString] at h
  split at h
  · obtain ⟨ht, hr⟩ := span_end_inv h
    subst ht
    refine ⟨rfl, ?_⟩
    intro m tok hmt
    rw [hr] at hmt
    cases hmt
    refine ⟨rfl, rfl, ?_, recTok_other _ (by intro ps hh; cases hh)⟩
    intro a s hs
    cases hs
  · obtain ⟨ht, hr⟩ := span_end_inv h
    subst ht
    refine ⟨rfl, ?_⟩
    intro m tok hmt
    rw [hr] at hmt
    cases hmt
    refine ⟨rfl, rfl, ?_, ?_⟩
    · intro a s hs
      cases hs
    · rw [recTok_interpol]
      split
      · exact hip
      · rw [recParts_append]
        exact ⟨hip, by simp [RecParts, RecPart]⟩

end Rnix

namespace Rnix

theorem strBody_spec {str : StrF} {interp : InterpF}
    (hstr : ∀ meta ml ip lit t r t', RecParts ChainP pathCond ip →
      str meta ml ip lit t = (r, t') → StrConc meta t r t')
    (hinterp : ∀ meta tokens count t r t', InterpPre tokens t →
      interp meta tokens count t = (r, t') → InterpConc t r t')
    (meta : Meta) (ml : Bool) (ip : List Interpol) (lit : List Char)
    (t : Tokenizer) (r : Option Item) (t' : Tokenizer)
    (hip : RecParts ChainP pathCond ip)
    (h : strBody str interp meta ml ip lit t = (r, t')) :
    StrConc meta t r t' := by
  rw [strBody] at h
  split at h
  · obtain ⟨ht, hr⟩ := span_err_inv h
    subst ht
    refine ⟨posLe_refl _, ?_⟩
    intro m tok hmt
    rw [hr] at hmt
    simp at hmt
  · rename_i c hpk
    by_cases h1 : c = '"' ∧ ml = false
    · rw [if_pos h1] at h
      obtain ⟨ht, hfin⟩ := finishString_spec hip h
      subst ht
      exact ⟨adv_pos t, hfin⟩
    · rw [if_neg h1] at h
      by_cases h2 : c = squote ∧ ml = true
      · rw [if_pos h2] at h
        split at h
        · obtain ⟨ht, hr⟩ := span_err_inv h
          subst ht
          refine ⟨adv_pos t, ?_⟩
          intro m tok hmt
          rw [hr] at hmt
          simp at hmt
        · rename_i c2 hpk2
          by_cases h3 : c2 = squote
          · rw [if_pos h3] at h
            obtain ⟨ht, hfin⟩ := finishString_spec hip h
            subst ht
            exact ⟨posLe_trans (adv_pos t) (adv_pos t.adv), hfin⟩
          · rw [if_neg h3] at h
            have hc := hstr _ _ _ _ _ _ _ hip h
            exact ⟨posLe_trans (adv_pos t) hc.1, hc.2⟩
      · rw [if_neg h2] at h
        by_cases h3 : c = '\n' ∧ ml = true
        · rw [if_pos h3] at h
          have hc := hstr _ _ _ _ _ _ _ hip h
          exact ⟨posLe_trans (adv_pos t) (posLe_trans (consumeWhile_pos _ _) hc.1), hc.2⟩
        · rw [if_neg h3] at h
          by_cases h4 : c = '\\' ∧ ml = false
          · rw [if_pos h4] at h
            split at h
            · rename_i t2 heq
              cases h
              refine ⟨?_, ?_⟩
              · have ht2 : t' = t.adv.adv := by
                  rw [Tokenizer.adv, heq]
                rw [ht2]
                exact posLe_trans (adv_pos t) (adv_pos t.adv)
              · intro m tok hmt
                simp at hmt
            · rename_i c2 t2 heq
              have ht2 : t2 = t.adv.adv := by
                rw [Tokenizer.adv, heq]
              rw [ht2] at h
              have hc := hstr _ _ _ _ _ _ _ hip h
              exact ⟨posLe_trans (adv_pos t)
                (posLe_trans (adv_pos t.adv) hc.1), hc.2⟩
          · rw [if_neg h4] at h
            by_cases h5 : c = '$'
            · rw [if_pos h5] at h
              split at h
              · rename_i c2 hpk2
                by_cases h6 : c2 = '{'
                · rw [if_pos h6] at h
                  split at h
                  · rename_i t3 heq
                    cases h
                    have hic := hinterp _ _ _ _ _ _ (interpPre_nil _) heq
                    refine ⟨posLe_trans (adv_pos t)
                      (posLe_trans (adv_pos t.adv) hic.1), ?_⟩
                    intro m tok hmt
                    simp at hmt
                  · rename_i item t3 heq
                    cases h
                    have hic := hinterp _ _ _ _ _ _ (interpPre_nil _) heq
                    obtain ⟨se, hse⟩ := hic.2.2 item rfl
                    subst hse
                    refine ⟨posLe_trans (adv_pos t)
                      (posLe_trans (adv_pos t.adv) hic.1), ?_⟩
                    intro m tok hmt
                    simp at hmt
                  · rename_i tokens t3 heq
                    have hic := hinterp _ _ _ _ _ _ (interpPre_nil _) heq
                    have hgrp := hic.2.1 tokens rfl
                    have hpre : RecParts ChainP pathCond
                        ((ip ++ [.Literal (String.mk lit)]) ++ [.Tokens tokens]) := by
                      rw [recParts_append, recParts_append]
                      refine ⟨⟨hip, by simp [RecParts, RecPart]⟩, ?_⟩
                      simp [RecParts, RecPart]
                      exact ⟨hgrp.2, hgrp.1⟩
                    have hc := hstr _ _ _ _ _ _ _ hpre h
                    exact ⟨posLe_trans (adv_pos t)
                      (posLe_trans (adv_pos t.adv) (posLe_trans hic.1 hc.1)), hc.2⟩
                · rw [if_neg h6] at h
                  have hc := hstr _ _ _ _ _ _ _ hip h
                  exact ⟨posLe_trans (adv_pos t) hc.1, hc.2⟩
              · have hc := hstr _ _ _ _ _ _ _ hip h
                exact ⟨posLe_trans (adv_pos t) hc.1, hc.2⟩
            · rw [if_neg h5] at h
              have hc := hstr _ _ _ _ _ _ _ hip h
              exact ⟨posLe_trans (adv_pos t) hc.1, hc.2⟩

end Rnix

namespace Rnix

theorem interpBody_spec {iter : IterF} {interp : InterpF}
    (hiter : ∀ t r t', iter t = (r, t') → IterConc t r t')
    (hinterp : ∀ meta tokens count t r t', InterpPre tokens t →
      interp meta tokens count t = (r, t') → InterpConc t r t')
    (meta : Meta) (tokens : List (Meta × Token)) (count : Nat)
    (t : Tokenizer) (r : Option InterpRes) (t' : Tokenizer)
    (hpre : InterpPre tokens t)
    (h : interpBody iter interp meta tokens count t = (r, t')) :
    InterpConc t r t' := by
  rw [interpBody] at h
  split at h
  · rename_i t1 heq
    cases h
    have hi := hiter _ _ _ heq
    refine ⟨hi.1, ?_, ?_⟩
    · intro ts hts
      simp at hts
    · intro item hitem
      injection hitem with h1
      injection h1 with h2
      exact ⟨_, h2.symm⟩
  · rename_i e t1 heq
    cases h
    have hi := hiter _ _ _ heq
    refine ⟨hi.1, ?_, ?_⟩
    · intro ts hts
      simp at hts
    · intro item hitem
      injection hitem with h1
      injection h1 with h2
      exact ⟨_, h2.symm⟩
  · rename_i m tok t1 heq
    have hi := hiter _ _ _ heq
    have hf := hi.2 m tok rfl
    have hpre' : InterpPre (tokens ++ [(m, tok)]) t1 := by
      refine ⟨?_, ?_, ?_⟩
      · rw [recList_append]
        refine ⟨hpre.1, ?_⟩
        simp [RecList]
        exact ⟨hf.2.2.1, hf.2.2.2⟩
      · rw [List.chain'_append]
        refine ⟨hpre.2.1, List.chain'_singleton _, ?_⟩
        intro x hx y hy
        simp at hy
        subst hy
        intro p hp
        exact posLe_trans (hpre.2.2 x (Option.mem_def.mp hx) p hp) hf.2.1
      · intro mt hmt p hp
        rw [List.getLast?_concat] at hmt
        injection hmt with hmt
        subst hmt
        rw [hf.1] at hp
        injection hp with hp
        subst hp
        exact posLe_refl _
    have step : ∀ count' r' t'', interp meta (tokens ++ [(m, tok)]) count' t1 = (r', t'') →
        InterpConc t r' t'' := by
      intro count' r' t'' hh
      have hc := hinterp _ _ _ _ _ _ hpre' hh
      exact ⟨posLe_trans hi.1 hc.1, hc.2.1, hc.2.2⟩
    cases tok with
    | CurlyBOpen => exact step _ _ _ h
    | CurlyBClose =>
      by_cases hcnt : count = 0
      · rw [if_pos hcnt] at h
        cases h
        refine ⟨hi.1, ?_, ?_⟩
        · intro ts hts
          injection hts with h1
          injection h1 with h2
          subst h2
          exact ⟨hpre.1, hpre.2.1⟩
        · intro item hitem
          simp at hitem
      · rw [if_neg hcnt] at h
        exact step _ _ _ h
    | Equal => exact step _ _ _ h
    | Semicolon => exact step _ _ _ h
    | Dot => exact step _ _ _ h
    | Ident s => exact step _ _ _ h
    | Value v => exact step _ _ _ h
    | Interpol ps => exact step _ _ _ h
    | Let => exact step _ _ _ h
    | In => exact step _ _ _ h
    | With => exact step _ _ _ h
    | Import => exact step _ _ _ h
    | Rec => exact step _ _ _ h
    | SquareBOpen => exact step _ _ _ h
    | SquareBClose => exact step _ _ _ h
    | Concat => exact step _ _ _ h
    | ParenOpen => exact step _ _ _ h
    | ParenClose => exact step _ _ _ h
    | Add => exact step _ _ _ h
    | Sub => exact step _ _ _ h
    | Mul => exact step _ _ _ h
    | Div => exact step _ _ _ h

end Rnix

namespace Rnix

theorem recTok_simple {L : List (Meta × Token) → Prop}
    {P : Meta × Token → Prop} {tok : Token}
    (h : ∀ parts, tok ≠ .Interpol parts) : RecTok L P tok :=
  recTok_other tok h

theorem storeTail_spec {meta : Meta} {T t' : Tokenizer} {r : Option Item}
    (h : storeTail meta T = (r, t')) :
    posLe T.pos t'.pos ∧
      ∀ m tok, r = some (.ok (m, tok)) →
        m.span.stop = some t'.pos ∧ m.span.start = meta.span.start ∧
          pathCond (m, tok) ∧ RecTok ChainP pathCond tok := by
  rw [storeTail] at h
  split at h
  rename_i cs t3 heqc
  split at h
  rename_i o t4 heqn
  have ht3 : t3 = (consumeWhile is_valid_path_char T).2 := by rw [heqc]
  have ht4 : t4 = t3.adv := by rw [Tokenizer.adv, heqn]
  have hpos : posLe T.pos t4.pos := by
    rw [ht4, ht3]
    exact posLe_trans (consumeWhile_pos _ _) (adv_pos _)
  split at h
  · obtain ⟨ht, hr⟩ := span_end_inv h
    subst ht
    refine ⟨hpos, ?_⟩
    intro m tok hmt
    rw [hr] at hmt
    cases hmt
    refine ⟨rfl, rfl, ?_, recTok_simple (by intro ps hh; cases hh)⟩
    intro a s hs
    cases hs
    rintro (ha | ha | ha) <;> cases ha
  · obtain ⟨ht, hr⟩ := span_err_inv h
    subst ht
    refine ⟨hpos, ?_⟩
    intro m tok hmt
    rw [hr] at hmt
    simp at hmt

theorem identTail_spec {meta : Meta} {kind1 : IdentType} {c : Char}
    {T t' : Tokenizer} {r : Option Item}
    (hk : kind1 ≠ IdentType.Path)
    (h : identTail meta kind1 c T = (r, t')) :
    posLe T.pos t'.pos ∧
      ∀ m tok, r = some (.ok (m, tok)) →
        m.span.stop = some t'.pos ∧ m.span.start = meta.span.start ∧
          pathCond (m, tok) ∧ RecTok ChainP pathCond tok := by
  rw [identTail] at h
  split at h
  rename_i cs t3 heqc
  have ht3 : t3 = (consumeWhile (identInclude kind1) T).2 := by rw [heqc]
  have hpos : posLe T.pos t3.pos := by
    rw [ht3]
    exact consumeWhile_pos _ _
  split at h
  · obtain ⟨ht, hr⟩ := span_end_inv h
    subst ht
    refine ⟨hpos, ?_⟩
    intro m tok hmt
    rw [hr] at hmt
    cases hmt
    refine ⟨rfl, rfl, ?_, ?_⟩
    · rw [keywordOf]
      split
      · intro a s hs; cases hs
      · split
        · intro a s hs; cases hs
        · split
          · intro a s hs; cases hs
          · split
            · intro a s hs; cases hs
            · split
              · intro a s hs; cases hs
              · intro a s hs; cases hs
    · rw [keywordOf]
      split
      · exact recTok_simple (by intro ps hh; cases hh)
      · split
        · exact recTok_simple (by intro ps hh; cases hh)
        · split
          · exact recTok_simple (by intro ps hh; cases hh)
          · split
            · exact recTok_simple (by intro ps hh; cases hh)
            · split
              · exact recTok_simple (by intro ps hh; cases hh)
              · exact recTok_simple (by intro ps hh; cases hh)
  · obtain ⟨ht, hr⟩ := span_end_inv h
    subst ht
    refine ⟨hpos, ?_⟩
    intro m tok hmt
    rw [hr] at hmt
    cases hmt
    refine ⟨rfl, rfl, ?_, ?_⟩
    · cases kind1 with
      | Ident =>
        intro a s hs
        cases hs
      | Path => exact absurd rfl hk
      | Uri =>
        intro a s hs
        cases hs
        rintro (ha | ha | ha) <;> cases ha
    · cases kind1 <;> exact recTok_simple (by intro ps hh; cases hh)

theorem floatTail_spec {meta : Meta} {num : Int} {T t' : Tokenizer}
    {r : Option Item} (h : floatTail meta num T = (r, t')) :
    posLe T.pos t'.pos ∧
      ∀ m tok, r = some (.ok (m, tok)) →
        m.span.stop = some t'.pos ∧ m.span.start = meta.span.start ∧
          pathCond (m, tok) ∧ RecTok ChainP pathCond tok := by
  rw [floatTail] at h
  split at h
  rename_i numf i k2 heqf
  split at h
  · obtain ⟨ht, hr⟩ := span_err_inv h
    subst ht
    refine ⟨consumeN_pos _ _, ?_⟩
    intro m tok hmt
    rw [hr] at hmt
    simp at hmt
  · obtain ⟨ht, hr⟩ := span_end_inv h
    subst ht
    refine ⟨consumeN_pos _ _, ?_⟩
    intro m tok hmt
    rw [hr] at hmt
    cases hmt
    refine ⟨rfl, rfl, ?_, recTok_simple (by intro ps hh; cases hh)⟩
    intro a s hs
    cases hs

theorem numericTail_spec {meta : Meta} {c : Char} {T t' : Tokenizer}
    {r : Option Item} (h : numericTail meta c T = (r, t')) :
    posLe T.pos t'.pos ∧
      ∀ m tok, r = some (.ok (m, tok)) →
        m.span.stop = some t'.pos ∧ m.span.start = meta.span.start ∧
          pathCond (m, tok) ∧ RecTok ChainP pathCond tok := by
  rw [numericTail] at h
  split at h
  · obtain ⟨ht, hr⟩ := span_err_inv h
    subst ht
    refine ⟨consumeN_pos _ _, ?_⟩
    intro m tok hmt
    rw [hr] at hmt
    simp at hmt
  · rename_i num k heqd
    split at h
    · have hf := floatTail_spec h
      refine ⟨posLe_trans (consumeN_pos _ _) (posLe_trans (adv_pos _) hf.1), hf.2⟩
    · obtain ⟨ht, hr⟩ := span_end_inv h
      subst ht
      refine ⟨consumeN_pos _ _, ?_⟩
      intro m tok hmt
      rw [hr] at hmt
      cases hmt
      refine ⟨rfl, rfl, ?_, recTok_simple (by intro ps hh; cases hh)⟩
      intro a s hs
      cases hs

end Rnix

namespace Rnix

theorem dispatch_spec {str : StrF}
    (hstr : ∀ meta ml ip lit t r t', RecParts ChainP pathCond ip →
      str meta ml ip lit t = (r, t') → StrConc meta t r t')
    {kind : Option IdentType} {meta : Meta} {c : Char} {t2 t' : Tokenizer}
    {r : Option Item} (h : dispatch str kind meta c t2 = (r, t')) :
    posLe t2.pos t'.pos ∧
      ∀ m tok, r = some (.ok (m, tok)) →
        m.span.stop = some t'.pos ∧ m.span.start = meta.span.start ∧
          pathCond (m, tok) ∧ RecTok ChainP pathCond tok := by
  have hpunct : ∀ (tokX : Token) (T : Tokenizer), posLe t2.pos T.pos →
      span_end meta tokX T = (r, t') → (∀ ps, tokX ≠ .Interpol ps) →
      (∀ v, tokX ≠ .Value v) →
      posLe t2.pos t'.pos ∧
        ∀ m tok, r = some (.ok (m, tok)) →
          m.span.stop = some t'.pos ∧ m.span.start = meta.span.start ∧
            pathCond (m, tok) ∧ RecTok ChainP pathCond tok := by
    intro tokX T hT hse hni hnv
    obtain ⟨ht, hr⟩ := span_end_inv hse
    subst ht
    refine ⟨hT, ?_⟩
    intro m tok hmt
    rw [hr] at hmt
    cases hmt
    exact ⟨rfl, rfl, fun a s hs => absurd hs (hnv _), recTok_simple hni⟩
  have herr : ∀ (e : TokenizeError) (T : Tokenizer), posLe t2.pos T.pos →
      span_err meta e T = (r, t') →
      posLe t2.pos t'.pos ∧
        ∀ m tok, r = some (.ok (m, tok)) →
          m.span.stop = some t'.pos ∧ m.span.start = meta.span.start ∧
            pathCond (m, tok) ∧ RecTok ChainP pathCond tok := by
    intro e T hT hse
    obtain ⟨ht, hr⟩ := span_err_inv hse
    subst ht
    refine ⟨hT, ?_⟩
    intro m tok hmt
    rw [hr] at hmt
    simp at hmt
  rw [dispatch] at h
  by_cases h0 : c = '~' ∨ kind = some IdentType.Path
  · rw [if_pos h0] at h
    by_cases h1 : c = '~'
    · rw [if_pos h1] at h
      split at h
      rename_i o t3 heqn
      have ht3 : t3 = t2.adv := by rw [Tokenizer.adv, heqn]
      subst ht3
      split at h
      · have hp := pathTail_spec h
        exact ⟨posLe_trans (adv_pos t2) hp.1, hp.2⟩
      · exact herr _ _ (adv_pos t2) h
    · rw [if_neg h1] at h
      by_cases h2 : c = '/'
      · rw [if_pos h2] at h
        have hp := pathTail_spec h
        exact ⟨hp.1, hp.2⟩
      · rw [if_neg h2] at h
        have hp := pathTail_spec h
        exact ⟨hp.1, hp.2⟩
  · rw [if_neg h0] at h
    by_cases h1 : c = '{'
    · rw [if_pos h1] at h
      exact hpunct _ _ (posLe_refl _) h (by intro ps hh; cases hh) (by intro v hh; cases hh)
    rw [if_neg h1] at h
    by_cases h2 : c = '}'
    · rw [if_pos h2] at h
      exact hpunct _ _ (posLe_refl _) h (by intro ps hh; cases hh) (by intro v hh; cases hh)
    rw [if_neg h2] at h
    by_cases h3 : c = '='
    · rw [if_pos h3] at h
      exact hpunct _ _ (posLe_refl _) h (by intro ps hh; cases hh) (by intro v hh; cases hh)
    rw [if_neg h3] at h
    by_cases h4 : c = ';'
    · rw [if_pos h4] at h
      exact hpunct _ _ (posLe_refl _) h (by intro ps hh; cases hh) (by intro v hh; cases hh)
    rw [if_neg h4] at h
    by_cases h5 : c = '['
    · rw [if_pos h5] at h
      exact hpunct _ _ (posLe_refl _) h (by intro ps hh; cases hh) (by intro v hh; cases hh)
    rw [if_neg h5] at h
    by_cases h6 : c = ']'
    · rw [if_pos h6] at h
      exact hpunct _ _ (posLe_refl _) h (by intro ps hh; cases hh) (by intro v hh; cases hh)
    rw [if_neg h6] at h
    by_cases h7 : c = '('
    · rw [if_pos h7] at h
      exact hpunct _ _ (posLe_refl _) h (by intro ps hh; cases hh) (by intro v hh; cases hh)
    rw [if_neg h7] at h
    by_cases h8 : c = ')'
    · rw [if_pos h8] at h
      exact hpunct _ _ (posLe_refl _) h (by intro ps hh; cases hh) (by intro v hh; cases hh)
    rw [if_neg h8] at h
    by_cases h9 : c = '+'
    · rw [if_pos h9] at h
      split at h
      · exact hpunct _ _ (adv_pos _) h (by intro ps hh; cases hh) (by intro v hh; cases hh)
      · exact hpunct _ _ (posLe_refl _) h (by intro ps hh; cases hh) (by intro v hh; cases hh)
    rw [if_neg h9] at h
    by_cases h10 : c = '-'
    · rw [if_pos h10] at h
      exact hpunct _ _ (posLe_refl _) h (by intro ps hh; cases hh) (by intro v hh; cases hh)
    rw [if_neg h10] at h
    by_cases h11 : c = '*'
    · rw [if_pos h11] at h
      exact hpunct _ _ (posLe_refl _) h (by intro ps hh; cases hh) (by intro v hh; cases hh)
    rw [if_neg h11] at h
    by_cases h12 : c = '/'
    · rw [if_pos h12] at h
      exact hpunct _ _ (posLe_refl _) h (by intro ps hh; cases hh) (by intro v hh; cases hh)
    rw [if_neg h12] at h
    by_cases h13 : c = '.'
    · rw [if_pos h13] at h
      exact hpunct _ _ (posLe_refl _) h (by intro ps hh; cases hh) (by intro v hh; cases hh)
    rw [if_neg h13] at h
    by_cases h14 : c = '<'
    · rw [if_pos h14] at h
      exact storeTail_spec h
    rw [if_neg h14] at h
    by_cases h15 : isAsciiAlpha c
    · rw [if_pos h15] at h
      have hkk : kind.getD IdentType.Ident ≠ IdentType.Path := by
        cases kind with
        | none => simp
        | some k =>
          simp only [Option.getD]
          intro hh
          exact (not_or.mp h0).2 (by rw [hh])
      exact identTail_spec hkk h
    rw [if_neg h15] at h
    by_cases h16 : c = '"'
    · rw [if_pos h16] at h
      have hc := hstr _ _ _ _ _ _ _ (by simp [RecParts]) h
      exact ⟨hc.1, hc.2⟩
    rw [if_neg h16] at h
    by_cases h17 : c = squote
    · rw [if_pos h17] at h
      split at h
      · have hc := hstr _ _ _ _ _ _ _ (by simp [RecParts]) h
        exact ⟨posLe_trans (adv_pos _) hc.1, hc.2⟩
      · exact herr _ _ (posLe_refl _) h
    rw [if_neg h17] at h
    by_cases h18 : isDigit10 c
    · rw [if_pos h18] at h
      exact numericTail_spec h
    rw [if_neg h18] at h
    exact herr _ _ (posLe_refl _) h

theorem iterBody_spec {str : StrF}
    (hstr : ∀ meta ml ip lit t r t', RecParts ChainP pathCond ip →
      str meta ml ip lit t = (r, t') → StrConc meta t r t')
    (t : Tokenizer) (r : Option Item) (t' : Tokenizer)
    (h : iterBody str t = (r, t')) : IterConc t r t' := by
  rw [iterBody] at h
  split at h
  · rename_i se t1 heq
    cases h
    refine ⟨trivia_err_pos heq, ?_⟩
    intro m tok hmt
    simp at hmt
  · rename_i meta1 t1 heq
    have hpos1 : posLe t.pos t1.pos := trivia_ok_pos heq
    split at h
    · rename_i t2 hnx
      cases h
      refine ⟨?_, ?_⟩
      · have ht2 : t' = t1.adv := by rw [Tokenizer.adv, hnx]
        rw [ht2]
        exact posLe_trans hpos1 (adv_pos t1)
      · intro m tok hmt
        simp at hmt
    · rename_i c t2 hnx
      have ht2 : t2 = t1.adv := by rw [Tokenizer.adv, hnx]
      subst ht2
      have hd := dispatch_spec hstr h
      refine ⟨posLe_trans hpos1 (posLe_trans (adv_pos t1) hd.1), ?_⟩
      intro m tok hmt
      obtain ⟨hstop, hstart, hpc, hrec⟩ := hd.2 m tok hmt
      refine ⟨hstop, ?_, hpc, hrec⟩
      rw [hstart]
      exact posLe_trans hpos1 (posLe_refl _)

end Rnix

namespace Rnix

theorem machineConc : ∀ fuel : Nat,
    (∀ t r t', iterNext fuel t = (r, t') → IterConc t r t') ∧
    (∀ meta ml ip lit t r t', RecParts ChainP pathCond ip →
      nextString fuel meta ml ip lit t = (r, t') → StrConc meta t r t') ∧
    (∀ meta tokens count t r t', InterpPre tokens t →
      interpolLoop fuel meta tokens count t = (r, t') → InterpConc t r t') := by
  intro fuel
  induction fuel with
  | zero =>
    refine ⟨?_, ?_, ?_⟩
    · intro t r t' h
      injection h with h1 h2
      subst h1
      subst h2
      refine ⟨posLe_refl _, ?_⟩
      intro m tok hmt
      simp at hmt
    · intro meta ml ip lit t r t' hip h
      injection h with h1 h2
      subst h1
      subst h2
      refine ⟨posLe_refl _, ?_⟩
      intro m tok hmt
      simp at hmt
    · intro meta tokens count t r t' hpre h
      injection h with h1 h2
      subst h1
      subst h2
      refine ⟨posLe_refl _, ?_, ?_⟩
      · intro ts hts
        simp at hts
      · intro item hitem
        simp at hitem
  | succ fuel ih =>
    obtain ⟨ihIter, ihStr, ihInterp⟩ := ih
    refine ⟨?_, ?_, ?_⟩
    · intro t r t' h
      exact iterBody_spec ihStr t r t' h
    · intro meta ml ip lit t r t' hip h
      exact strBody_spec ihStr ihInterp meta ml ip lit t r t' hip h
    · intro meta tokens count t r t' hpre h
      exact interpBody_spec ihIter ihInterp meta tokens count t r t' hpre h

theorem iterNext_conc {fuel : Nat} {t t' : Tokenizer} {r : Option Item}
    (h : iterNext fuel t = (r, t')) : IterConc t r t' :=
  (machineConc fuel).1 t r t' h

theorem interpolLoop_conc {fuel : Nat} {meta : Meta}
    {tokens : List (Meta × Token)} {count : Nat} {t t' : Tokenizer}
    {r : Option InterpRes} (hpre : InterpPre tokens t)
    (h : interpolLoop fuel meta tokens count t = (r, t')) : InterpConc t r t' :=
  (machineConc fuel).2.2 meta tokens count t r t' hpre h

/-- The whole-stream invariant: chained spans among the `Ok` items, the
recursive invariant and path condition on every `Ok` token, and the first
`Ok` item starting no earlier than the initial cursor. -/
theorem tokenStream_inv : ∀ (n : Nat) (t : Tokenizer),
    List.Chain' adjOK (okItems (tokenStream n t)) ∧
    (∀ mt ∈ okItems (tokenStream n t),
      pathCond mt ∧ RecTok ChainP pathCond mt.2) ∧
    (∀ mt, (okItems (tokenStream n t)).head? = some mt →
      posLe t.pos mt.1.span.start) := by
  intro n
  induction n with
  | zero =>
    intro t
    refine ⟨by simp [tokenStream, okItems], ?_, ?_⟩
    · intro mt hmt
      simp [tokenStream, okItems] at hmt
    · intro mt hmt
      simp [tokenStream, okItems] at hmt
  | succ n ih =>
    intro t
    rw [tokenStream]
    rcases hpull : iterNext (2 * t.input.length + 4) t with ⟨o, t1⟩
    have hic := iterNext_conc hpull
    cases o with
    | none =>
      refine ⟨by simp [okItems], ?_, ?_⟩
      · intro mt hmt
        simp [okItems] at hmt
      · intro mt hmt
        simp [okItems] at hmt
    | some item =>
      obtain ⟨chain1, all1, head1⟩ := ih t1
      cases item with
      | error e =>
        refine ⟨?_, ?_, ?_⟩
        · simpa [okItems] using chain1
        · intro mt hmt
          simp only [okItems, List.filterMap_cons] at hmt
          exact all1 mt (by simpa [okItems] using hmt)
        · intro mt hmt
          simp only [okItems, List.filterMap_cons] at hmt
          exact posLe_trans hic.1 (head1 mt (by simpa [okItems] using hmt))
      | ok mt0 =>
        obtain ⟨hstop, hstart, hpc, hrec⟩ := hic.2 mt0.1 mt0.2 (by rw [Prod.mk.eta])
        refine ⟨?_, ?_, ?_⟩
        · simp only [okItems, List.filterMap_cons]
          rw [List.chain'_cons']
          refine ⟨?_, by simpa [okItems] using chain1⟩
          intro y hy
          intro p hp
          rw [hstop] at hp
          injection hp with hp
          subst hp
          exact head1 y (Option.mem_def.mp hy)
        · intro mt hmt
          simp only [okItems, List.filterMap_cons] at hmt
          rcases List.mem_cons.mp hmt with hmt | hmt
          · subst hmt
            exact ⟨hpc, hrec⟩
          · exact all1 mt (by simpa [okItems] using hmt)
        · intro mt hmt
          simp only [okItems, List.filterMap_cons] at hmt
          injection hmt with hmt
          subst hmt
          exact hstart

end Rnix

namespace Rnix

theorem char_eq_iff_toNat (c d : Char) : (c = d) ↔ (c.toNat = d.toNat) := by
  constructor
  · intro h
    rw [h]
  · intro h
    exact Char.ext (UInt32.ext h)

theorem identExtChar_eq_spec : identExtChar = specIdentClass := by
  funext c
  rw [identExtChar, specIdentClass, isAsciiAlpha, isDigit10]
  have e1 : '_'.toNat = 95 := by decide
  have e2 : '.'.toNat = 46 := by decide
  have e3 : '+'.toNat = 43 := by decide
  have e4 : '-'.toNat = 45 := by decide
  have h1 : (c = '_') = (c.toNat = 95) := by
    rw [char_eq_iff_toNat, e1]
  have h2 : (c = '.') = (c.toNat = 46) := by
    rw [char_eq_iff_toNat, e2]
  have h3 : (c = '+') = (c.toNat = 43) := by
    rw [char_eq_iff_toNat, e3]
  have h4 : (c = '-') = (c.toNat = 45) := by
    rw [char_eq_iff_toNat, e4]
  simp only [h1, h2, h3, h4]
  rw [Bool.eq_iff_iff]
  simp only [Bool.or_eq_true, Bool.and_eq_true, decide_eq_true_eq]
  omega

end Rnix

namespace Rnix

theorem lookahead_eq_spec (input : List Char) :
    lookahead input = specClassify input := by
  rw [lookahead, specClassify, identExtChar_eq_spec]
  have hdw : input.dropWhile specIdentClass =
      input.drop ((input.takeWhile specIdentClass).length) :=
    (drop_length_takeWhile _ _).symm
  rw [hdw]
  rcases hs : input.drop ((input.takeWhile specIdentClass).length)
    with _ | ⟨c1, rest⟩
  · have h0 : input[(input.takeWhile specIdentClass).length]? = none := by
      have := List.getElem?_drop input ((input.takeWhile specIdentClass).length) 0
      rw [hs] at this
      simpa using this.symm
    rw [h0]
  · have h0 : input[(input.takeWhile specIdentClass).length]? = some c1 := by
      have := List.getElem?_drop input ((input.takeWhile specIdentClass).length) 0
      rw [hs] at this
      simpa using this.symm
    rcases rest with _ | ⟨c2, rest2⟩
    · have h1 : input[(input.takeWhile specIdentClass).length + 1]? = none := by
        have := List.getElem?_drop input ((input.takeWhile specIdentClass).length) 1
        rw [hs] at this
        simpa using this.symm
      rw [h0, h1]
    · have h1 : input[(input.takeWhile specIdentClass).length + 1]? = some c2 := by
        have := List.getElem?_drop input ((input.takeWhile specIdentClass).length) 1
        rw [hs] at this
        simpa using this.symm
      rw [h0, h1]
      by_cases hc1 : c1 = ':'
      · by_cases hws : rustIsWhitespace c2 <;> simp [hc1, hws]
      · by_cases hc2 : c1 = '/'
        · by_cases hws : rustIsWhitespace c2 <;> simp [hc1, hc2, hws]
        · simp [hc1, hc2]

end Rnix

namespace Rnix

theorem iterNext_succ (n : Nat) (t : Tokenizer) :
    iterNext (n + 1) t = iterBody (nextString n) t :=
  rfl

theorem trivia_skip {meta : Meta} {t : Tokenizer}
    (h : ∀ c, t.input.head? = some c →
      rustIsWhitespace c = false ∧ c ≠ '#' ∧ c ≠ '/') :
    trivia meta t = .ok (meta, t) := by
  rw [trivia, triviaLoop]
  have hsk : skipWs t = t := by
    rcases hin : t.input with _ | ⟨c, rest⟩
    · simp [skipWs, consumeWhile, hin, consumeN]
    · have hc := (h c (by rw [hin]; rfl)).1
      simp [skipWs, consumeWhile, hin, List.takeWhile_cons, hc, consumeN]
  rw [hsk, triviaArms]
  split
  · rename_i rest heq
    have := (h '#' (by rw [heq]; rfl)).2.1
    exact absurd rfl this
  · rename_i rest heq
    have := (h '/' (by rw [heq]; rfl)).2.2
    exact absurd rfl this
  · rfl

theorem iterBody_trivia_ok {str : StrF} {t t1 : Tokenizer} {meta1 : Meta}
    (htr : trivia { span := t.spanStart, comments := [] } t = .ok (meta1, t1)) :
    iterBody str t =
      (match t1.next with
       | (none, t2) => ((none : Option Item), t2)
       | (some c, t2) =>
         dispatch str (lookahead t1.input)
           { meta1 with span := t1.spanStart } c t2) := by
  rw [iterBody, htr]

theorem tokenStream_nil (n : Nat) {t : Tokenizer} (h : t.input = []) :
    tokenStream n t = [] := by
  cases n with
  | zero => rfl
  | succ n =>
    have hnx : t.next = (none, t) := by
      rw [Tokenizer.next]
      split
      · rfl
      · rename_i c rest heq
        rw [h] at heq
        cases heq
    rw [tokenStream, h]
    have h4 : 2 * ([] : List Char).length + 4 = 3 + 1 := by simp
    rw [h4, iterNext_succ,
      iterBody_trivia_ok (trivia_skip (by intro c hc; rw [h] at hc; cases hc)),
      hnx]

theorem digit_facts {c : Char} (h : isDigit10 c = true) :
    rustIsWhitespace c = false ∧ identExtChar c = true ∧
      isAsciiAlpha c = false ∧ c ≠ '\n' ∧ c ≠ '#' ∧ c ≠ '/' ∧ c ≠ '~' ∧
      c ≠ '{' ∧ c ≠ '}' ∧ c ≠ '=' ∧ c ≠ ';' ∧ c ≠ '[' ∧ c ≠ ']' ∧
      c ≠ '(' ∧ c ≠ ')' ∧ c ≠ '+' ∧ c ≠ '-' ∧ c ≠ '*' ∧ c ≠ '.' ∧
      c ≠ '<' ∧ c ≠ '"' ∧ c ≠ squote := by
  have hb : 48 ≤ c.toNat ∧ c.toNat ≤ 57 := by
    rw [isDigit10] at h
    simpa using h
  have hne : ∀ d : Char, ¬(isDigit10 d = true) → c ≠ d := by
    intro d hd hh
    rw [hh] at h
    exact hd h
  refine ⟨?_, ?_, ?_, hne _ (by decide), hne _ (by decide), hne _ (by decide),
    hne _ (by decide), hne _ (by decide), hne _ (by decide), hne _ (by decide),
    hne _ (by decide), hne _ (by decide), hne _ (by decide), hne _ (by decide),
    hne _ (by decide), hne _ (by decide), hne _ (by decide), hne _ (by decide),
    hne _ (by decide), hne _ (by decide), hne _ (by decide), hne _ (by decide)⟩
  · rw [rustIsWhitespace]
    simp only [Bool.or_eq_false_iff, decide_eq_false_iff_not, Bool.and_eq_false_iff]
    omega
  · rw [identExtChar, isDigit10]
    simp only [Bool.or_eq_true, decide_eq_true_eq, Bool.and_eq_true]
    omega
  · rw [isAsciiAlpha]
    simp only [Bool.or_eq_false_iff, decide_eq_false_iff_not, Bool.and_eq_false_iff]
    omega

theorem dispatch_digit {str : StrF} {kind : Option IdentType} {meta : Meta}
    {c : Char} {t2 : Tokenizer} (hd : isDigit10 c = true)
    (hk : kind ≠ some IdentType.Path) :
    dispatch str kind meta c t2 = numericTail meta c t2 := by
  obtain ⟨hws, hext, halpha, hnl, hhash, hslash, htilde, hlb, hrb, heqs, hsemi,
    hsb, hsbc, hpo, hpc, hplus, hminus, hstar, hdot, hlt, hquote, hsq⟩ :=
    digit_facts hd
  rw [dispatch]
  rw [if_neg (by rintro (hh | hh); exact htilde hh; exact hk hh)]
  rw [if_neg hlb, if_neg hrb, if_neg heqs, if_neg hsemi, if_neg hsb,
    if_neg hsbc, if_neg hpo, if_neg hpc, if_neg hplus, if_neg hminus,
    if_neg hstar, if_neg hslash, if_neg hdot, if_neg hlt,
    if_neg (by rw [halpha]; exact Bool.false_ne_true), if_neg hquote,
    if_neg hsq, if_pos hd]

end Rnix

namespace Rnix

theorem foldl_digits_ge (ds : List Char) : ∀ num : Int, 0 ≤ num →
    num ≤ ds.foldl (fun a c => 10 * a + (digitVal c : Int)) num ∧
      0 ≤ ds.foldl (fun a c => 10 * a + (digitVal c : Int)) num := by
  induction ds with
  | nil =>
    intro num h0
    simp [h0]
  | cons c rest ih =>
    intro num h0
    have hd0 : (0 : Int) ≤ (digitVal c : Int) := Int.natCast_nonneg _
    have h0' : 0 ≤ 10 * num + (digitVal c : Int) := by omega
    obtain ⟨ha, hb⟩ := ih _ h0'
    simp only [List.foldl_cons]
    exact ⟨le_trans (by omega) ha, hb⟩

theorem checked_mul_eq (a b : Int) : checked_mul a b =
    if -9223372036854775808 ≤ a * b ∧ a * b ≤ 9223372036854775807 then
      some (a * b)
    else none := by
  rw [checked_mul]
  norm_num

theorem checked_add_eq (a b : Int) : checked_add a b =
    if -9223372036854775808 ≤ a + b ∧ a + b ≤ 9223372036854775807 then
      some (a + b)
    else none := by
  rw [checked_add]
  norm_num

theorem digit_le_nine {c : Char} (hc : isDigit10 c = true) :
    0 ≤ (digitVal c : Int) ∧ (digitVal c : Int) ≤ 9 := by
  rw [isDigit10] at hc
  simp only [Bool.and_eq_true, decide_eq_true_eq] at hc
  rw [digitVal]
  omega

theorem digitsRun_ok (ds : List Char) : ∀ num : Int, allDigits ds → 0 ≤ num →
    ds.foldl (fun a c => 10 * a + (digitVal c : Int)) num ≤
      9223372036854775807 →
    digitsRun num ds =
      (some (ds.foldl (fun a c => 10 * a + (digitVal c : Int)) num),
        ds.length) := by
  induction ds with
  | nil =>
    intro num _ _ _
    simp [digitsRun]
  | cons c rest ih =>
    intro num hdig h0 hle
    have hc : isDigit10 c = true := hdig c (List.mem_cons_self _ _)
    obtain ⟨hd0, hd9⟩ := digit_le_nine hc
    have hmono := foldl_digits_ge rest (10 * num + (digitVal c : Int)) (by omega)
    have hle1 : 10 * num + (digitVal c : Int) ≤ 9223372036854775807 := by
      refine le_trans hmono.1 ?_
      simpa [List.foldl_cons] using hle
    have hm : checked_mul num 10 = some (num * 10) := by
      rw [checked_mul_eq, if_pos (by constructor <;> omega)]
    have ha : checked_add (num * 10) ((digitVal c : Int)) =
        some (10 * num + (digitVal c : Int)) := by
      rw [checked_add_eq, if_pos (by constructor <;> omega)]
      congr 1
      ring
    have hrec := ih (10 * num + (digitVal c : Int))
      (fun x hx => hdig x (List.mem_cons_of_mem _ hx)) (by omega)
      (by simpa [List.foldl_cons] using hle)
    rw [digitsRun, if_pos hc]
    simp only [hm, ha, hrec, List.foldl_cons, List.length_cons]

theorem digitsRun_overflow (ds : List Char) : ∀ num : Int, allDigits ds →
    0 ≤ num → num ≤ 9223372036854775807 →
    9223372036854775807 <
      ds.foldl (fun a c => 10 * a + (digitVal c : Int)) num →
    (digitsRun num ds).1 = none := by
  induction ds with
  | nil =>
    intro num _ _ hle hgt
    simp only [List.foldl_nil] at hgt
    omega
  | cons c rest ih =>
    intro num hdig h0 hle hgt
    have hc : isDigit10 c = true := hdig c (List.mem_cons_self _ _)
    obtain ⟨hd0, hd9⟩ := digit_le_nine hc
    rw [digitsRun, if_pos hc]
    by_cases hnum : 10 * num + (digitVal c : Int) ≤ 9223372036854775807
    · have hm : checked_mul num 10 = some (num * 10) := by
        rw [checked_mul_eq, if_pos (by constructor <;> omega)]
      have ha : checked_add (num * 10) ((digitVal c : Int)) =
          some (10 * num + (digitVal c : Int)) := by
        rw [checked_add_eq, if_pos (by constructor <;> omega)]
        congr 1
        ring
      have hrec := ih (10 * num + (digitVal c : Int))
        (fun x hx => hdig x (List.mem_cons_of_mem _ hx)) (by omega) hnum
        (by simpa [List.foldl_cons] using hgt)
      simp only [hm, ha, hrec]
    · rcases hm : checked_mul num 10 with _ | a
      · simp only [hm]
      · rw [checked_mul_eq] at hm
        split at hm
        · rename_i hbound
          injection hm with hm
          subst hm
          have hm2 : checked_mul num 10 = some (num * 10) := by
            rw [checked_mul_eq, if_pos hbound]
          have ha : checked_add (num * 10) ((digitVal c : Int)) = none := by
            rw [checked_add_eq, if_neg]
            intro hcon
            omega
          simp only [hm2, ha]
        · cases hm

end Rnix

namespace Rnix

theorem consumeN_all_cols : ∀ (l : List Char) (row col : Nat),
    (∀ c ∈ l, c ≠ '\n') →
    consumeN l.length ⟨l, row, col⟩ = ⟨[], row, col + l.length⟩ := by
  intro l
  induction l with
  | nil =>
    intro row col _
    simp [consumeN]
  | cons c r ih =>
    intro row col h
    have hc : c ≠ '\n' := h c (List.mem_cons_self _ _)
    have hadv : (⟨c :: r, row, col⟩ : Tokenizer).adv = ⟨r, row, col + 1⟩ := by
      simp [Tokenizer.adv, Tokenizer.next, hc]
    rw [List.length_cons, consumeN, hadv,
      ih row (col + 1) (fun x hx => h x (List.mem_cons_of_mem _ hx))]
    congr 1
    omega

theorem digit_not_newline {c : Char} (h : isDigit10 c = true) : c ≠ '\n' :=
  (digit_facts h).2.2.2.1

theorem tokenize_digits (ds : List Char) (hne : ds ≠ []) (hdig : allDigits ds) :
    (digitsVal ds ≤ 9223372036854775807 →
      tokenize (String.mk ds) =
        [.ok (⟨⟨(0, 0), some (0, ds.length)⟩, []⟩,
          .Value (.Integer (digitsVal ds)))]) ∧
    (9223372036854775807 < digitsVal ds →
      (tokenize (String.mk ds)).head? =
        some (.error (⟨(0, 0), none⟩, .IntegerOverflow))) := by
  obtain ⟨d0, rest, rfl⟩ : ∃ d0 rest, ds = d0 :: rest := by
    cases ds with
    | nil => exact absurd rfl hne
    | cons a b => exact ⟨a, b, rfl⟩
  have hd0 : isDigit10 d0 = true := hdig d0 (List.mem_cons_self _ _)
  have hdig' : allDigits rest := fun x hx => hdig x (List.mem_cons_of_mem _ hx)
  obtain ⟨hd00, hd09⟩ := digit_le_nine hd0
  have hdfacts := digit_facts hd0
  have htr : trivia ⟨(⟨d0 :: rest, 0, 0⟩ : Tokenizer).spanStart, []⟩
      ⟨d0 :: rest, 0, 0⟩ =
      .ok (⟨(⟨d0 :: rest, 0, 0⟩ : Tokenizer).spanStart, []⟩,
        ⟨d0 :: rest, 0, 0⟩) := by
    refine trivia_skip ?_
    intro c hc
    injection hc with hc
    subst hc
    exact ⟨hdfacts.1, hdfacts.2.2.2.2.1, hdfacts.2.2.2.2.2.1⟩
  have hnx : (⟨d0 :: rest, 0, 0⟩ : Tokenizer).next =
      (some d0, ⟨rest, 0, 1⟩) := by
    simp [Tokenizer.next, hdfacts.2.2.2.1]
  have hla : lookahead (d0 :: rest) = none := by
    rw [lookahead]
    have : (d0 :: rest).dropWhile identExtChar = [] := by
      rw [List.dropWhile_eq_nil_iff]
      intro x hx
      exact (digit_facts (hdig x hx)).2.1
    rw [this]
  have hdv : digitsVal (d0 :: rest) =
      rest.foldl (fun a c => 10 * a + (digitVal c : Int)) ((digitVal d0 : Int)) := by
    rw [digitsVal, List.foldl_cons]
    norm_num
  have hfs : 2 * (d0 :: rest).length + 4 = (2 * rest.length + 5) + 1 := by
    simp [List.length_cons]
    ring
  constructor
  · intro hle
    rw [hdv] at hle
    have hrun := digitsRun_ok rest (digitVal d0 : Int) hdig' hd00 hle
    have hcN : consumeN rest.length (⟨rest, 0, 1⟩ : Tokenizer) =
        ⟨[], 0, 1 + rest.length⟩ := by
      have := consumeN_all_cols rest 0 1
        (fun x hx => digit_not_newline (hdig' x hx))
      simpa using this
    have hnum : numericTail ⟨⟨(0, 0), none⟩, []⟩ d0
        ⟨rest, 0, 1⟩ =
        (some (.ok (⟨⟨(0, 0), some (0, 1 + rest.length)⟩, []⟩,
          .Value (.Integer (digitsVal (d0 :: rest))))),
          ⟨[], 0, 1 + rest.length⟩) := by
      rw [numericTail]
      simp only [hrun, hcN, hdv]
      rw [if_neg (by simp [Tokenizer.peek])]
      rw [span_end]
      rfl
    have hIter : iterNext (2 * (⟨d0 :: rest, 0, 0⟩ : Tokenizer).input.length + 4)
        ⟨d0 :: rest, 0, 0⟩ =
        (some (.ok (⟨⟨(0, 0), some (0, 1 + rest.length)⟩, []⟩,
          .Value (.Integer (digitsVal (d0 :: rest))))),
          ⟨[], 0, 1 + rest.length⟩) := by
      show iterNext (2 * (d0 :: rest).length + 4) ⟨d0 :: rest, 0, 0⟩ = _
      rw [hfs, iterNext_succ, iterBody_trivia_ok htr]
      simp only [hnx]
      rw [dispatch_digit hd0 (by rw [hla]; simp)]
      show numericTail ⟨⟨(0, 0), none⟩, []⟩ d0 ⟨rest, 0, 1⟩ = _
      exact hnum
    rw [tokenize]
    show tokenStream ((d0 :: rest).length + 1) ⟨d0 :: rest, 0, 0⟩ = _
    rw [tokenStream]
    simp only [hIter]
    rw [tokenStream_nil _ rfl]
    have : 1 + rest.length = (d0 :: rest).length := by
      simp [List.length_cons]
      omega
    rw [this]
  · intro hgt
    rw [hdv] at hgt
    rcases hrun2 : digitsRun (digitVal d0 : Int) rest with ⟨o, k⟩
    have ho : o = none := by
      have := digitsRun_overflow rest (digitVal d0 : Int) hdig' hd00 (by omega) hgt
      rw [hrun2] at this
      exact this
    subst ho
    have hnum : numericTail ⟨⟨(0, 0), none⟩, []⟩ d0
        ⟨rest, 0, 1⟩ =
        (some (.error (⟨(0, 0), none⟩, .IntegerOverflow)),
          consumeN k ⟨rest, 0, 1⟩) := by
      rw [numericTail]
      simp only [hrun2]
      rw [span_err]
    have hIter : iterNext (2 * (⟨d0 :: rest, 0, 0⟩ : Tokenizer).input.length + 4)
        ⟨d0 :: rest, 0, 0⟩ =
        (some (.error (⟨(0, 0), none⟩, .IntegerOverflow)),
          consumeN k ⟨rest, 0, 1⟩) := by
      show iterNext (2 * (d0 :: rest).length + 4) ⟨d0 :: rest, 0, 0⟩ = _
      rw [hfs, iterNext_succ, iterBody_trivia_ok htr]
      simp only [hnx]
      rw [dispatch_digit hd0 (by rw [hla]; simp)]
      show numericTail ⟨⟨(0, 0), none⟩, []⟩ d0 ⟨rest, 0, 1⟩ = _
      exact hnum
    rw [tokenize]
    show (tokenStream ((d0 :: rest).length + 1) ⟨d0 :: rest, 0, 0⟩).head? = _
    rw [tokenStream]
    simp only [hIter]
    rfl

end Rnix

namespace Rnix

theorem nextString_succ (n : Nat) (meta : Meta) (ml : Bool)
    (ip : List Interpol) (lit : List Char) (t : Tokenizer) :
    nextString (n + 1) meta ml ip lit t =
      strBody (nextString n) (interpolLoop n) meta ml ip lit t :=
  rfl

theorem interpolLoop_succ (n : Nat) (meta : Meta)
    (tokens : List (Meta × Token)) (count : Nat) (t : Tokenizer) :
    interpolLoop (n + 1) meta tokens count t =
      interpBody (iterNext n) (interpolLoop n) meta tokens count t :=
  rfl

theorem next_nil {t : Tokenizer} (h : t.input = []) : t.next = (none, t) := by
  obtain ⟨inp, row, col⟩ := t
  simp only at h
  subst h
  rfl

theorem next_cons {t : Tokenizer} {c : Char} {rest : List Char}
    (h : t.input = c :: rest) : t.next = (some c, t.adv) := by
  obtain ⟨inp, row, col⟩ := t
  simp only at h
  subst h
  rfl

theorem peek_eq {t : Tokenizer} : t.peek = t.input.head? :=
  rfl

theorem strBody_peek_none {str : StrF} {interp : InterpF} {meta : Meta}
    {ml : Bool} {ip : List Interpol} {lit : List Char} {t : Tokenizer}
    (h : t.peek = none) :
    strBody str interp meta ml ip lit t = span_err meta .UnexpectedEOF t := by
  rw [strBody, h]

theorem strBody_peek_some {str : StrF} {interp : InterpF} {meta : Meta}
    {ml : Bool} {ip : List Interpol} {lit : List Char} {t : Tokenizer}
    {c : Char} (h : t.peek = some c) :
    strBody str interp meta ml ip lit t =
      (if c = '"' ∧ ml = false then finishString meta ip lit t.adv
       else if c = squote ∧ ml = true then
         match t.adv.peek with
         | none => span_err meta .UnexpectedEOF t.adv
         | some c2 =>
           if c2 = squote then finishString meta ip lit t.adv.adv
           else str meta ml ip (lit ++ [squote]) t.adv
       else if c = '\n' ∧ ml = true then
         str meta ml ip (if lit = [] then lit else lit ++ ['\n'])
           (consumeWhile isIndent t.adv).2
       else if c = '\\' ∧ ml = false then
         match t.adv.next with
         | (none, t2) => (none, t2)
         | (some c2, t2) => str meta ml ip (lit ++ [c2]) t2
       else if c = '$' then
         match t.adv.peek with
         | some c2 =>
           if c2 = '{' then
             match interp meta [] 0 t.adv.adv with
             | (none, t3) => (none, t3)
             | (some (.error item), t3) => (some item, t3)
             | (some (.ok tokens), t3) =>
               str meta ml ((ip ++ [.Literal (String.mk lit)]) ++ [.Tokens tokens])
                 [] t3
           else str meta ml ip (lit ++ ['$']) t.adv
         | none => str meta ml ip (lit ++ ['$']) t.adv
       else str meta ml ip (lit ++ [c]) t.adv) := by
  rw [strBody, h]

theorem trailingEscape_cons_ne {c : Char} {rest : List Char} (h : c ≠ '\\') :
    trailingEscape (c :: rest) = trailingEscape rest := by
  cases rest <;> simp [trailingEscape, h]

/-- The single-line string loop on an input free of `"` and `$`: it scans to
the end of input and reports `UnexpectedEOF` — except that an input ending
in the middle of a `\\X` escape makes `self.next()?` propagate `None`, so
the iterator just stops.  Either way the whole input is consumed. -/
theorem nextString_plain : ∀ (fuel : Nat) (cs : List Char) (meta : Meta)
    (ip : List Interpol) (lit : List Char) (t : Tokenizer), t.input = cs →
    cs.length < fuel → (∀ c ∈ cs, c ≠ '"' ∧ c ≠ '$') →
    (nextString fuel meta false ip lit t).1 =
      (if trailingEscape cs then none
       else some (.error (meta.span, .UnexpectedEOF))) ∧
    (nextString fuel meta false ip lit t).2.input = [] := by
  intro fuel
  induction fuel with
  | zero =>
    intro cs _ _ _ _ _ hlen _
    omega
  | succ f ih =>
    intro cs meta ip lit t hin hlen hchars
    rw [nextString_succ]
    cases cs with
    | nil =>
      rw [strBody_peek_none (show t.peek = none from by rw [peek_eq, hin]; rfl)]
      rw [span_err]
      exact ⟨rfl, hin⟩
    | cons c rest =>
      have hc := hchars c (List.mem_cons_self _ _)
      have hadv : t.adv.input = rest := by rw [adv_input, hin]; rfl
      rw [strBody_peek_some (show t.peek = some c from by
        rw [peek_eq, hin]; rfl)]
      rw [if_neg (show ¬(c = '"' ∧ (false : Bool) = false) from
        fun hh => hc.1 hh.1)]
      rw [if_neg (show ¬(c = squote ∧ (false : Bool) = true) from
        fun hh => by simp at hh)]
      rw [if_neg (show ¬(c = '\n' ∧ (false : Bool) = true) from
        fun hh => by simp at hh)]
      by_cases hbs : c = '\\'
      · rw [if_pos (show c = '\\' ∧ (false : Bool) = false from ⟨hbs, rfl⟩)]
        cases rest with
        | nil =>
          rw [next_nil hadv]
          subst hbs
          exact ⟨rfl, hadv⟩
        | cons c2 rest2 =>
          rw [next_cons hadv]
          have hadv2 : t.adv.adv.input = rest2 := by rw [adv_input, hadv]; rfl
          have hrec := ih rest2 meta ip (lit ++ [c2]) t.adv.adv hadv2
            (by simp [List.length_cons] at hlen ⊢; omega)
            (fun x hx => hchars x (by simp [hx]))
          subst hbs
          rw [show trailingEscape ('\\' :: c2 :: rest2) = trailingEscape rest2
            from rfl]
          exact hrec
      · rw [if_neg (show ¬(c = '\\' ∧ (false : Bool) = false) from
          fun hh => hbs hh.1)]
        rw [if_neg hc.2]
        have hrec := ih rest meta ip (lit ++ [c]) t.adv hadv
          (by simp [List.length_cons] at hlen ⊢; omega)
          (fun x hx => hchars x (by simp [hx]))
        rw [trailingEscape_cons_ne hbs]
        exact hrec

end Rnix

namespace Rnix

theorem curly_cons (m : Meta) (tok : Token) (l : List (Meta × Token)) :
    curlyOpens ((m, tok) :: l) = curlyOpens [(m, tok)] + curlyOpens l ∧
    curlyCloses ((m, tok) :: l) = curlyCloses [(m, tok)] + curlyCloses l := by
  constructor <;> simp [curlyOpens, curlyCloses, List.countP_cons] <;> omega

/-- The brace-depth invariant of the interpolation pull loop: a successful
group extends the accumulated tokens with a suffix in which no prefix has
more `CurlyBClose` than `CurlyBOpen` plus the entry depth, and whose final
excess of closes over opens is exactly the entry depth (the loop ends at
the first `CurlyBClose` pulled at depth 0, which is not collected). -/
theorem interp_count : ∀ (fuel : Nat) (meta : Meta)
    (tokens : List (Meta × Token)) (count : Nat) (t : Tokenizer)
    (r : Option InterpRes) (t1 : Tokenizer) (ts : List (Meta × Token)),
    interpolLoop fuel meta tokens count t = (r, t1) → r = some (.ok ts) →
    ∃ suffix, ts = tokens ++ suffix ∧
      (∀ p, p <+: suffix → curlyCloses p ≤ curlyOpens p + count) ∧
      curlyCloses suffix = curlyOpens suffix + count := by
  intro fuel
  induction fuel with
  | zero =>
    intro meta tokens count t r t1 ts h hr
    injection h with h1 h2
    subst h1
    simp at hr
  | succ f ih =>
    intro meta tokens count t r t1 ts h hr
    rw [interpolLoop_succ, interpBody] at h
    split at h
    · cases h
      simp at hr
    · cases h
      simp at hr
    · rename_i m tok tmid heq
      have hcont : ∀ (count' : Nat),
          curlyOpens [(m, tok)] + count = count' + curlyCloses [(m, tok)] →
          interpolLoop f meta (tokens ++ [(m, tok)]) count' tmid = (r, t1) →
          ∃ suffix, ts = tokens ++ suffix ∧
            (∀ p, p <+: suffix → curlyCloses p ≤ curlyOpens p + count) ∧
            curlyCloses suffix = curlyOpens suffix + count := by
        intro count' hrel hh
        obtain ⟨suffix', hts, hpre, hbal⟩ := ih _ _ _ _ _ _ _ hh hr
        refine ⟨(m, tok) :: suffix', by simpa using hts, ?_, ?_⟩
        · intro p hp
          rcases p with _ | ⟨x, p'⟩
          · simp [curlyOpens, curlyCloses]
          · obtain ⟨hx, hp'⟩ := (List.cons_prefix_cons).mp hp
            subst hx
            have h1 := (curly_cons m tok p').1
            have h2 := (curly_cons m tok p').2
            have h5 := hpre p' hp'
            omega
        · have h1 := (curly_cons m tok suffix').1
          have h2 := (curly_cons m tok suffix').2
          omega
      cases tok with
      | CurlyBOpen =>
        refine hcont (count + 1) ?_ h
        simp [curlyOpens, curlyCloses, List.countP_cons]
        omega
      | CurlyBClose =>
        by_cases hcnt : count = 0
        · rw [if_pos hcnt] at h
          cases h
          injection hr with hr
          injection hr with hr
          subst hr
          subst hcnt
          refine ⟨[], by simp, ?_, by simp [curlyOpens, curlyCloses]⟩
          intro p hp
          rw [List.prefix_nil.mp hp]
          simp [curlyOpens, curlyCloses]
        · rw [if_neg hcnt] at h
          refine hcont (count - 1) ?_ h
          simp [curlyOpens, curlyCloses, List.countP_cons]
          omega
      | Equal =>
        refine hcont count ?_ h
        simp [curlyOpens, curlyCloses, List.countP_cons]
      | Semicolon =>
        refine hcont count ?_ h
        simp [curlyOpens, curlyCloses, List.countP_cons]
      | Dot =>
        refine hcont count ?_ h
        simp [curlyOpens, curlyCloses, List.countP_cons]
      | Ident s =>
        refine hcont count ?_ h
        simp [curlyOpens, curlyCloses, List.countP_cons]
      | Value v =>
        refine hcont count ?_ h
        simp [curlyOpens, curlyCloses, List.countP_cons]
      | Interpol ps =>
        refine hcont count ?_ h
        simp [curlyOpens, curlyCloses, List.countP_cons]
      | Let =>
        refine hcont count ?_ h
        simp [curlyOpens, curlyCloses, List.countP_cons]
      | In =>
        refine hcont count ?_ h
        simp [curlyOpens, curlyCloses, List.countP_cons]
      | With =>
        refine hcont count ?_ h
        simp [curlyOpens, curlyCloses, List.countP_cons]
      | Import =>
        refine hcont count ?_ h
        simp [curlyOpens, curlyCloses, List.countP_cons]
      | Rec =>
        refine hcont count ?_ h
        simp [curlyOpens, curlyCloses, List.countP_cons]
      | SquareBOpen =>
        refine hcont count ?_ h
        simp [curlyOpens, curlyCloses, List.countP_cons]
      | SquareBClose =>
        refine hcont count ?_ h
        simp [curlyOpens, curlyCloses, List.countP_cons]
      | Concat =>
        refine hcont count ?_ h
        simp [curlyOpens, curlyCloses, List.countP_cons]
      | ParenOpen =>
        refine hcont count ?_ h
        simp [curlyOpens, curlyCloses, List.countP_cons]
      | ParenClose =>
        refine hcont count ?_ h
        simp [curlyOpens, curlyCloses, List.countP_cons]
      | Add =>
        refine hcont count ?_ h
        simp [curlyOpens, curlyCloses, List.countP_cons]
      | Sub =>
        refine hcont count ?_ h
        simp [curlyOpens, curlyCloses, List.countP_cons]
      | Mul =>
        refine hcont count ?_ h
        simp [curlyOpens, curlyCloses, List.countP_cons]
      | Div =>
        refine hcont count ?_ h
        simp [curlyOpens, curlyCloses, List.countP_cons]

end Rnix

namespace Rnix

theorem unclosedComment_step (f : Nat) :
    iterNext (f + 1) ⟨['/', '*'], 0, 0⟩ =
      (some (.error (⟨(0, 0), none⟩, .UnclosedComment)), ⟨['/', '*'], 0, 0⟩) :=
  rfl

theorem unclosedComment_stream : ∀ n : Nat,
    tokenStream n ⟨['/', '*'], 0, 0⟩ =
      List.replicate n (.error (⟨(0, 0), none⟩, .UnclosedComment)) := by
  intro n
  induction n with
  | zero => rfl
  | succ n ih =>
    rw [tokenStream]
    rw [show 2 * (⟨['/', '*'], 0, 0⟩ : Tokenizer).input.length + 4 = 7 + 1
      from rfl]
    simp only [unclosedComment_step 7]
    rw [ih, List.replicate_succ]

theorem dispatch_quote {str : StrF} {kind : Option IdentType} {meta : Meta}
    {t2 : Tokenizer} (hk : kind ≠ some IdentType.Path) :
    dispatch str kind meta '"' t2 = str meta false [] [] t2 := by
  rw [dispatch]
  rw [if_neg (by rintro (hh | hh); exact absurd hh (by decide); exact hk hh)]
  rw [if_neg (by decide), if_neg (by decide), if_neg (by decide),
    if_neg (by decide), if_neg (by decide), if_neg (by decide),
    if_neg (by decide), if_neg (by decide), if_neg (by decide),
    if_neg (by decide), if_neg (by decide), if_neg (by decide),
    if_neg (by decide), if_neg (by decide),
    if_neg (show ¬isAsciiAlpha '"' = true from by decide), if_pos rfl]

theorem lookahead_quote (cs : List Char) : lookahead ('"' :: cs) = none := by
  rw [lookahead]
  rw [show ('"' :: cs).dropWhile identExtChar = '"' :: cs from by
    rw [List.dropWhile_cons, if_neg (by decide)]]
  cases cs with
  | nil => rfl
  | cons c2 r => rfl

/-- A double-quoted string whose body contains neither `"` nor `$`: the
whole input is consumed; a body ending in the middle of a backslash escape
ends the stream with no item at all, any other such body ends in a single
`UnexpectedEOF` error item. -/
theorem tokenize_unterminated (cs : List Char)
    (hchars : ∀ c ∈ cs, c ≠ '"' ∧ c ≠ '$') :
    tokenize (String.mk ('"' :: cs)) =
      (if trailingEscape cs then []
       else [.error (⟨(0, 0), none⟩, .UnexpectedEOF)]) := by
  have htr : trivia ⟨(⟨'"' :: cs, 0, 0⟩ : Tokenizer).spanStart, []⟩
      ⟨'"' :: cs, 0, 0⟩ =
      .ok (⟨(⟨'"' :: cs, 0, 0⟩ : Tokenizer).spanStart, []⟩,
        ⟨'"' :: cs, 0, 0⟩) := by
    refine trivia_skip ?_
    intro c hc
    injection hc with hc
    subst hc
    refine ⟨by decide, by decide, by decide⟩
  have hnx : (⟨'"' :: cs, 0, 0⟩ : Tokenizer).next =
      (some '"', ⟨cs, 0, 1⟩) := by
    simp [Tokenizer.next]
  have hstr := nextString_plain (2 * cs.length + 5) cs
    ⟨⟨(0, 0), none⟩, []⟩ [] [] ⟨cs, 0, 1⟩ rfl (by omega) hchars
  rcases hres : nextString (2 * cs.length + 5) ⟨⟨(0, 0), none⟩, []⟩ false [] []
    ⟨cs, 0, 1⟩ with ⟨o, tf⟩
  rw [hres] at hstr
  dsimp only at hstr
  obtain ⟨ho, htf⟩ := hstr
  have hIter : iterNext (2 * (⟨'"' :: cs, 0, 0⟩ : Tokenizer).input.length + 4)
      ⟨'"' :: cs, 0, 0⟩ = (o, tf) := by
    show iterNext (2 * ('"' :: cs).length + 4) ⟨'"' :: cs, 0, 0⟩ = _
    rw [show 2 * ('"' :: cs).length + 4 = (2 * cs.length + 5) + 1 from by
      simp [List.length_cons]; ring]
    rw [iterNext_succ, iterBody_trivia_ok htr]
    simp only [hnx]
    rw [dispatch_quote (by rw [lookahead_quote]; simp)]
    exact hres
  rw [tokenize]
  show tokenStream (('"' :: cs).length + 1) ⟨'"' :: cs, 0, 0⟩ = _
  rw [tokenStream]
  simp only [hIter]
  by_cases hesc : trailingEscape cs
  · rw [if_pos hesc]
    rw [if_pos hesc] at ho
    subst ho
    rfl
  · rw [if_neg hesc]
    rw [if_neg hesc] at ho
    subst ho
    show ((.error (⟨(0, 0), none⟩, .UnexpectedEOF) : Item) ::
      tokenStream ('"' :: cs).length tf) = _
    rw [tokenStream_nil _ htf]

theorem dollar_step (f : Nat) (meta : Meta) (ml : Bool) (ip : List Interpol)
    (lit : List Char) (t : Tokenizer) (c2 : Char) (r : List Char)
    (hin : t.input = '$' :: c2 :: r) (hc2 : c2 ≠ '{') :
    nextString (f + 1) meta ml ip lit t =
      nextString f meta ml ip (lit ++ ['$']) t.adv := by
  have hadv : t.adv.input = c2 :: r := by rw [adv_input, hin]; rfl
  rw [nextString_succ, strBody_peek_some (show t.peek = some '$' from by
    rw [peek_eq, hin]; rfl)]
  rw [if_neg (fun hh => absurd hh.1 (by decide))]
  rw [if_neg (fun hh => absurd hh.1 (by decide))]
  rw [if_neg (fun hh => absurd hh.1 (by decide))]
  rw [if_neg (fun hh => absurd hh.1 (by decide))]
  rw [if_pos rfl]
  rw [show t.adv.peek = some c2 from by rw [peek_eq, hadv]; rfl]
  simp only [if_neg hc2]

theorem newline_drop_step (f : Nat) (meta : Meta) (ip : List Interpol)
    (t : Tokenizer) (r : List Char) (hin : t.input = '\n' :: r) :
    nextString (f + 1) meta true ip [] t =
      nextString f meta true ip [] (consumeWhile isIndent t.adv).2 := by
  rw [nextString_succ, strBody_peek_some (show t.peek = some '\n' from by
    rw [peek_eq, hin]; rfl)]
  rw [if_neg (fun hh => absurd hh.1 (by decide))]
  rw [if_neg (fun hh => absurd hh.1 (by decide))]
  rw [if_pos ⟨rfl, rfl⟩]
  rw [if_pos rfl]

theorem newline_keep_step (f : Nat) (meta : Meta) (ip : List Interpol)
    (lit : List Char) (t : Tokenizer) (r : List Char)
    (hin : t.input = '\n' :: r) (hlit : lit ≠ []) :
    nextString (f + 1) meta true ip lit t =
      nextString f meta true ip (lit ++ ['\n']) (consumeWhile isIndent t.adv).2 := by
  rw [nextString_succ, strBody_peek_some (show t.peek = some '\n' from by
    rw [peek_eq, hin]; rfl)]
  rw [if_neg (fun hh => absurd hh.1 (by decide))]
  rw [if_neg (fun hh => absurd hh.1 (by decide))]
  rw [if_pos ⟨rfl, rfl⟩]
  rw [if_neg hlit]

end Rnix

namespace Rnix

/-- C1: before consuming an identifier-shaped run the dispatcher's lookahead
classifies the remaining input exactly as the spec describes — skip the
longest prefix over `[A-Za-z0-9_.+-]`, then `Uri` when the code point at
`|R|` is `:` and the one at `|R|+1` exists and is not whitespace, `Path`
when it is `/` likewise, identifier otherwise; in particular `a/3` lexes as
one relative `Path` token while `a/ 3` lexes as `Ident("a")`, `Div`,
`Integer(3)`. -/
theorem claim_C1 :
    (∀ input : List Char, lookahead input = specClassify input) ∧
    (tokenize ("a/3")).map itemTok =
      [.ok (.Value (.Path .Relative ("a/3")))] ∧
    (tokenize ("a/ 3")).map itemTok =
      [.ok (.Ident ("a")), .ok .Div, .ok (.Value (.Integer 3))] :=
  ⟨lookahead_eq_spec, rfl, rfl⟩

/-- Witness for C1 at a concrete input. -/
theorem claim_C1_witness :
    lookahead (("a/3").data) = specClassify (("a/3").data) :=
  claim_C1.1 _

/-- C2: in the `Ok` items produced by `tokenize`, each token's span starts
no earlier than the previous token's span ends, and the same chain
condition holds recursively inside every `Tokens` part of every `Interpol`
token. -/
theorem claim_C2 (s : String) :
    List.Chain' adjOK (okItems (tokenize s)) ∧
    ∀ mt ∈ okItems (tokenize s), RecTok ChainP (fun _ => True) mt.2 := by
  refine ⟨(tokenStream_inv _ _).1, ?_⟩
  intro mt hmt
  exact recTok_mono (fun ts h => h) (fun _ _ => trivial) mt.2
    ((tokenStream_inv _ _).2.1 mt hmt).2

/-- Witness for C2 at a concrete input and token. -/
theorem claim_C2_witness :
    List.Chain' adjOK (okItems (tokenize ("a/ 3"))) ∧
    RecTok ChainP (fun _ => True) (Token.Ident ("a")) := by
  refine ⟨(claim_C2 ("a/ 3")).1, ?_⟩
  refine (claim_C2 ("a/ 3")).2 (⟨⟨(0, 0), some (0, 1)⟩, []⟩, .Ident ("a")) ?_
  rw [show okItems (tokenize ("a/ 3")) =
    [(⟨⟨(0, 0), some (0, 1)⟩, []⟩, .Ident ("a")),
     (⟨⟨(0, 1), some (0, 2)⟩, []⟩, .Div),
     (⟨⟨(0, 3), some (0, 4)⟩, []⟩, .Value (.Integer 3))] from rfl]
  exact List.mem_cons_self _ _

/-- C3: a pure decimal digit run whose value fits below `2^63` lexes to the
single `Integer` token with exactly that value; a run whose value is at
least `2^63` makes the numeric reader emit `IntegerOverflow` as the first
item instead of a token. -/
theorem claim_C3 (ds : List Char) (hne : ds ≠ []) (hdig : allDigits ds) :
    (digitsVal ds < 2 ^ 63 →
      tokenize (String.mk ds) =
        [.ok (⟨⟨(0, 0), some (0, ds.length)⟩, []⟩,
          .Value (.Integer (digitsVal ds)))]) ∧
    (2 ^ 63 ≤ digitsVal ds →
      (tokenize (String.mk ds)).head? =
        some (.error (⟨(0, 0), none⟩, .IntegerOverflow))) := by
  have h := tokenize_digits ds hne hdig
  constructor
  · intro hle
    refine h.1 ?_
    have : (2 : Int) ^ 63 = 9223372036854775808 := by norm_num
    omega
  · intro hge
    refine h.2 ?_
    have : (2 : Int) ^ 63 = 9223372036854775808 := by norm_num
    omega

/-- Witness for C3 at the digit run `42`. -/
theorem claim_C3_witness :
    tokenize (String.mk ['4', '2']) =
      [.ok (⟨⟨(0, 0), some (0, 2)⟩, []⟩, .Value (.Integer 42))] :=
  (claim_C3 ['4', '2'] (by decide)
    (show ∀ c ∈ (['4', '2'] : List Char), isDigit10 c = true by decide)).1
    (by decide)

/-- C4: the interpolation pull loop's brace-depth counter: a successfully
collected group (started at depth 0) extends the accumulator by a suffix in
which every prefix has at most as many `CurlyBClose` as `CurlyBOpen` plus
the entry depth — so the terminating depth-0 `CurlyBClose` is never in the
group — and whose close/open excess equals the entry depth exactly, i.e.
the loop stops at the first `CurlyBClose` pulled at depth 0.  The concrete
run shows all other pulled tokens appearing in order, nested braces
included, with the terminating close dropped. -/
theorem claim_C4 :
    (∀ fuel meta tokens count t r t1 ts,
      interpolLoop fuel meta tokens count t = (r, t1) → r = some (.ok ts) →
      ∃ suffix, ts = tokens ++ suffix ∧
        (∀ p, p <+: suffix → curlyCloses p ≤ curlyOpens p + count) ∧
        curlyCloses suffix = curlyOpens suffix + count) ∧
    (tokenize (String.mk ['"', '$', '{', 'a', '{', 'b', '}', 'c', '}', '"'])).map
        itemTok =
      [.ok (.Interpol [.Literal (""),
        .Tokens [(⟨⟨(0, 3), some (0, 4)⟩, []⟩, .Ident ("a")),
                 (⟨⟨(0, 4), some (0, 5)⟩, []⟩, .CurlyBOpen),
                 (⟨⟨(0, 5), some (0, 6)⟩, []⟩, .Ident ("b")),
                 (⟨⟨(0, 6), some (0, 7)⟩, []⟩, .CurlyBClose),
                 (⟨⟨(0, 7), some (0, 8)⟩, []⟩, .Ident ("c"))]])] :=
  ⟨interp_count, rfl⟩

/-- Witness for C4 at a concrete interpolation run. -/
theorem claim_C4_witness :
    ∃ suffix, [(⟨⟨(0, 0), some (0, 1)⟩, []⟩, (Token.Ident ("a")))] =
        [] ++ suffix ∧
      (∀ p, p <+: suffix → curlyCloses p ≤ curlyOpens p + 0) ∧
      curlyCloses suffix = curlyOpens suffix + 0 :=
  claim_C4.1 5 ⟨⟨(0, 0), none⟩, []⟩ [] 0 ⟨['a', '}'], 0, 0⟩ _ _ _ rfl rfl

/-- Counterexample to C5 as stated: the store-path branch performs no
trailing-slash check, so `<a/>` lexes to an `Ok` `Path(Store, "a/")` token
whose body ends in `/`. -/
theorem claim_C5_counterexample :
    ¬ (∀ mt ∈ okItems (tokenize ("<a/>")), ∀ a s,
        mt.2 = .Value (.Path a s) → s.data.getLast? ≠ some '/') := by
  intro hall
  have hm : (⟨⟨(0, 0), some (0, 4)⟩, []⟩,
      (Token.Value (.Path .Store ("a/")))) ∈ okItems (tokenize ("<a/>")) := by
    rw [show okItems (tokenize ("<a/>")) =
      [(⟨⟨(0, 0), some (0, 4)⟩, []⟩, .Value (.Path .Store ("a/")))] from rfl]
    exact List.mem_cons_self _ _
  exact hall _ hm .Store ("a/") rfl rfl

/-- C5 (amended): every emitted `Path` token with anchor `Absolute`,
`Relative` or `Home` — the anchors produced by the path-reader branch,
which rejects a trailing `/` with `TrailingSlash` — has a body that does
not end in `/`, recursively inside interpolation groups as well; `Store`
and `Uri` path bodies are not checked and may end in `/`. -/
theorem claim_C5 :
    (∀ s : String, ∀ mt ∈ okItems (tokenize s),
      pathCond mt ∧ RecTok (fun _ => True) pathCond mt.2) ∧
    tokenize ("a/b/") = [.error (⟨(0, 0), none⟩, .TrailingSlash)] ∧
    (tokenize ("<a/>")).map itemTok =
      [.ok (.Value (.Path .Store ("a/")))] ∧
    (tokenize ("a:b/")).map itemTok =
      [.ok (.Value (.Path .Uri ("a:b/")))] := by
  refine ⟨?_, rfl, rfl, rfl⟩
  intro s mt hmt
  have h := (tokenStream_inv _ _).2.1 mt hmt
  exact ⟨h.1, recTok_mono (fun _ _ => trivial) (fun _ hp => hp) mt.2 h.2⟩

/-- Witness for C5 at a concrete input and token. -/
theorem claim_C5_witness :
    pathCond (⟨⟨(0, 0), some (0, 3)⟩, []⟩,
      (Token.Value (.Path .Relative ("a/3")))) := by
  refine (claim_C5.1 ("a/3") (⟨⟨(0, 0), some (0, 3)⟩, []⟩,
    .Value (.Path .Relative ("a/3"))) ?_).1
  rw [show okItems (tokenize ("a/3")) =
    [(⟨⟨(0, 0), some (0, 3)⟩, []⟩, .Value (.Path .Relative ("a/3")))] from rfl]
  exact List.mem_cons_self _ _

/-- Counterexample to C6 as stated: when the single-line string's input
ends right after a backslash, `literal.push(self.next()?)` propagates
`None` and the iterator ends with no item — no `UnexpectedEOF` error is
ever yielded. -/
theorem claim_C6_counterexample :
    tokenize ("\"\\") = [] ∧
    ∀ sp, Except.error (sp, TokenizeError.UnexpectedEOF) ∉ tokenize ("\"\\") := by
  refine ⟨rfl, ?_⟩
  intro sp h
  rw [show tokenize ("\"\\") = [] from rfl] at h
  cases h

/-- C6 (amended): a single-line string that reaches end of input before its
closing quote yields `Err(UnexpectedEOF)` — except when the input ends in
the middle of a backslash escape, in which case the item sequence simply
ends with no item at all.  Stated for bodies free of `"` and `$`, via
`trailingEscape` which scans escapes left to right. -/
theorem claim_C6 :
    (∀ cs : List Char, (∀ c ∈ cs, c ≠ '"' ∧ c ≠ '$') →
      tokenize (String.mk ('"' :: cs)) =
        (if trailingEscape cs then []
         else [.error (⟨(0, 0), none⟩, .UnexpectedEOF)])) ∧
    tokenize ("\"abc") = [.error (⟨(0, 0), none⟩, .UnexpectedEOF)] :=
  ⟨tokenize_unterminated, rfl⟩

/-- Witness for C6 at a concrete input. -/
theorem claim_C6_witness :
    tokenize (String.mk ['"', 'a']) =
      (if trailingEscape ['a'] then []
       else [.error (⟨(0, 0), none⟩, .UnexpectedEOF)]) :=
  claim_C6.1 ['a'] (by decide)

/-- Counterexample to C7 as stated: an unclosed block comment errors
without consuming anything, so pulling the iterator keeps yielding the same
`UnclosedComment` error — `tokenize ("/*")` contains more than one `Err`
item and the sequence does not end after the first. -/
theorem claim_C7_counterexample :
    tokenize ("/*") =
      List.replicate 3 (.error (⟨(0, 0), none⟩, .UnclosedComment)) ∧
    ¬ ((tokenize ("/*")).countP (fun i =>
        match i with
        | .error _ => true
        | _ => false) ≤ 1) := by
  refine ⟨rfl, ?_⟩
  decide

/-- C7 (amended): an `Err` item need not end the sequence: an erroring pull
can leave the cursor unchanged, so the same `Err` is yielded on every
subsequent pull; for an unclosed block comment every pull yields
`UnclosedComment` with the state unchanged, so the stream is an unbounded
repetition of that error. -/
theorem claim_C7 :
    (∀ f, iterNext (f + 1) ⟨['/', '*'], 0, 0⟩ =
      (some (.error (⟨(0, 0), none⟩, .UnclosedComment)), ⟨['/', '*'], 0, 0⟩)) ∧
    (∀ n, tokenStream n ⟨['/', '*'], 0, 0⟩ =
      List.replicate n (.error (⟨(0, 0), none⟩, .UnclosedComment))) :=
  ⟨unclosedComment_step, unclosedComment_stream⟩

/-- Witness for C7 at concrete fuel and pull counts. -/
theorem claim_C7_witness :
    tokenStream 2 ⟨['/', '*'], 0, 0⟩ =
      List.replicate 2 (.error (⟨(0, 0), none⟩, .UnclosedComment)) :=
  claim_C7.2 2

/-- C8: in a multi-line string a newline seen while the literal buffer is
empty is discarded (the loop continues with the buffer still empty), and
since the buffer is emptied when an interpolation part is flushed, a
newline right after `${ … }` is likewise discarded; a newline with a
non-empty buffer is kept. -/
theorem claim_C8 :
    (∀ f meta ip t r, Tokenizer.input t = '\n' :: r →
      nextString (f + 1) meta true ip [] t =
        nextString f meta true ip [] (consumeWhile isIndent t.adv).2) ∧
    (tokenize (String.mk
        [squote, squote, '$', '{', 'a', '}', '\n', 'b', squote, squote])).map
        itemTok =
      [.ok (.Interpol [.Literal (""),
        .Tokens [(⟨⟨(0, 4), some (0, 5)⟩, []⟩, .Ident ("a"))],
        .Literal ("b")])] ∧
    (tokenize (String.mk [squote, squote, '\n', 'b', squote, squote])).map
        itemTok = [.ok (.Value (.Str ("b")))] ∧
    (tokenize (String.mk [squote, squote, 'a', '\n', 'b', squote, squote])).map
        itemTok = [.ok (.Value (.Str (String.mk ['a', '\n', 'b'])))] :=
  ⟨fun f meta ip t r h => newline_drop_step f meta ip t r h, rfl, rfl, rfl⟩

/-- Witness for C8 at a concrete state. -/
theorem claim_C8_witness :
    nextString 1 ⟨⟨(0, 0), none⟩, []⟩ true [] [] ⟨['\n'], 0, 0⟩ =
      nextString 0 ⟨⟨(0, 0), none⟩, []⟩ true [] []
        (consumeWhile isIndent (⟨['\n'], 0, 0⟩ : Tokenizer).adv).2 :=
  claim_C8.1 0 ⟨⟨(0, 0), none⟩, []⟩ [] ⟨['\n'], 0, 0⟩ [] rfl

/-- C9: in both string modes a `$` not followed by `{` is appended to the
literal buffer as a literal dollar and scanning resumes at the following
code point; consequently `"$${a}"` (and its multi-line analogue) lexes to
`Interpol([Literal("$"), Tokens(…)])` — the second `$` still begins an
interpolation. -/
theorem claim_C9 :
    (∀ f meta ml ip lit t c2 r, Tokenizer.input t = '$' :: c2 :: r →
      c2 ≠ '{' →
      nextString (f + 1) meta ml ip lit t =
        nextString f meta ml ip (lit ++ ['$']) t.adv) ∧
    (tokenize (String.mk ['"', '$', '$', '{', 'a', '}', '"'])).map itemTok =
      [.ok (.Interpol [.Literal ("$"),
        .Tokens [(⟨⟨(0, 4), some (0, 5)⟩, []⟩, .Ident ("a"))]])] ∧
    (tokenize (String.mk
        [squote, squote, '$', '$', '{', 'a', '}', squote, squote])).map
        itemTok =
      [.ok (.Interpol [.Literal ("$"),
        .Tokens [(⟨⟨(0, 5), some (0, 6)⟩, []⟩, .Ident ("a"))]])] :=
  ⟨fun f meta ml ip lit t c2 r h hc => dollar_step f meta ml ip lit t c2 r h hc,
    rfl, rfl⟩

/-- Witness for C9 at a concrete state. -/
theorem claim_C9_witness :
    nextString 1 ⟨⟨(0, 0), none⟩, []⟩ false [] [] ⟨['$', 'a'], 0, 0⟩ =
      nextString 0 ⟨⟨(0, 0), none⟩, []⟩ false [] (([] : List Char) ++ ['$'])
        (⟨['$', 'a'], 0, 0⟩ : Tokenizer).adv :=
  claim_C9.1 0 ⟨⟨(0, 0), none⟩, []⟩ false [] [] ⟨['$', 'a'], 0, 0⟩ 'a' []
    rfl (by decide)

/-- C10: `<>` lexes without error to the single token `Path(Store, "")` —
an empty body between `<` and `>` is accepted. -/
theorem claim_C10 :
    tokenize ("<>") =
      [.ok (⟨⟨(0, 0), some (0, 2)⟩, []⟩, .Value (.Path .Store ("")))] :=
  rfl

end Rnix
